import Mathlib

/-!
Verification development for the clearcut repository.

The embedding covers:
* the reducer state machine of `src/App.reducer.ts` (data model, actions,
  `appReducer`),
* the sequential processing loop `handleStart` of the reducer-driven
  `App.tsx` (the file `src/unnamed/part_001`), modelled as the list of
  actions it dispatches, parameterised by the per-item outcome of the
  external mask/composite/save steps and by a cooperative cancellation
  schedule,
* the cancel-button handler of the older `useState`-based `src/App.tsx`
  (lines 471-482),
* the mask compositor `applyMask` of `src/services/photo.ts`, modelled at
  the pixel level (images as lists of RGBA pixels, the mask already
  resampled to the source dimensions, canvas byte stores modelled as
  round-half-to-even clamped writes over exact rationals),
* the output naming function `createFileName` of `src/unnamed/part_000`,
  together with models of the Tauri path helpers `basename`/`extname` it
  calls (documented Tauri semantics: `basename` keeps the extension,
  `extname` returns the extension without the leading dot), and of the
  JavaScript `String.replace` with a string pattern (first occurrence).
-/

namespace Clearcut

/-! ## Data model (src/App.reducer.ts, lines 1-25) -/

/-- `FileItem` from App.reducer.ts lines 2-8. -/
structure FileItem where
  id : String
  name : String
  path : String
  size : Nat
  preview : String
deriving DecidableEq

/-- `FileStatus` from App.reducer.ts line 10. -/
inductive FileStatus
  | pending
  | processing
  | completed
  | error
deriving DecidableEq

/-- The `status` field of `ProcessingRequest` (App.reducer.ts line 13):
`"processing" | "success" | "error"`.  There is no cancelled member. -/
inductive RequestStatus
  | processing
  | success
  | error
deriving DecidableEq

/-- A JavaScript `Map<string, FileStatus>` modelled as an association list in
insertion order (`Map.set` updates an existing key in place and appends a
fresh key; `Map.prototype.values` iterates in insertion order). -/
abbrev StatusMap := List (String × FileStatus)

/-- JavaScript `Map.set` semantics; the reducer's `updateMap` helper
(App.reducer.ts lines 134-138) copies the map and then calls `set`. -/
def updateMap (m : StatusMap) (k : String) (v : FileStatus) : StatusMap :=
  match m with
  | [] => [(k, v)]
  | (k', v') :: rest => if k' = k then (k, v) :: rest else (k', v') :: updateMap rest k v

/-- JavaScript `Map.get` (used as `processedFiles.get(file.id)` in the UI). -/
def mapGet? (m : StatusMap) (k : String) : Option FileStatus :=
  match m with
  | [] => none
  | (k', v') :: rest => if k' = k then some v' else mapGet? rest k

/-- The keys of the status map, in insertion order. -/
def mapKeys (m : StatusMap) : List String :=
  m.map Prod.fst

/-- `status === "completed" || status === "error"` (App.reducer.ts line 238). -/
def isDone : FileStatus → Bool
  | .completed => true
  | .error => true
  | _ => false

/-- The count of entries whose status is completed or error
(App.reducer.ts lines 237-239). -/
def doneCount (m : StatusMap) : Nat :=
  (m.filter (fun p => isDone p.2)).length

/-- Round a rational to the nearest integer, ties to even (the IEEE-754
`roundTiesToEven` rule applied to a scaled significand). -/
def roundHalfEven (q : ℚ) : ℤ :=
  if q - (⌊q⌋ : ℚ) < 1/2 then ⌊q⌋
  else if (1 : ℚ)/2 < q - (⌊q⌋ : ℚ) then ⌊q⌋ + 1
  else if ⌊q⌋ % 2 = 0 then ⌊q⌋ else ⌊q⌋ + 1

/-- The binary64 value nearest to a positive rational: 53 significand bits,
round ties to even.  `Int.log 2 q` is the exponent of the leading bit, so
`q / 2 ^ (Int.log 2 q - 52)` scales the 53-bit significand window to the
integers.  (No subnormal or overflow handling: every value arising here
lies well inside the normal range.) -/
def toDoublePos (q : ℚ) : ℚ :=
  (roundHalfEven (q / 2 ^ (Int.log 2 q - 52)) : ℚ) * 2 ^ (Int.log 2 q - 52)

/-- The binary64 value nearest to a rational (exact rational of the IEEE
double produced by a JavaScript arithmetic operation whose exact result is
`q`). -/
def toDouble (q : ℚ) : ℚ :=
  if q = 0 then 0 else if 0 < q then toDoublePos q else - toDoublePos (-q)

/-- The progress computation of App.reducer.ts lines 241-244 and 260-263:
`total > 0 ? Math.round((count / total) * 100) : 0`, evaluated as the
source evaluates it — in IEEE-754 binary64 arithmetic.  `count` and
`total` are integers (exact as doubles); the division and the
multiplication by 100 each round to the nearest double; `Math.round` then
yields the integer nearest to that double's exact value, ties toward +∞,
i.e. `⌊x + 1/2⌋` for nonnegative `x`.  Because of the two intermediate
roundings this can differ from rounding the exact ratio: e.g.
`jsProgress 23 40 = 57` while the exact value `57.5` rounds to 58. -/
def jsProgress (count total : Nat) : Nat :=
  if total = 0 then 0
  else (⌊toDouble (toDouble ((count : ℚ) / (total : ℚ)) * 100) + 1/2⌋).toNat

/-- The formula as the specification words it: `round(100 * count / total)`
over exact rationals (`Math.round x = ⌊x + 1/2⌋` for nonnegative `x`, which
for `(100 * count) / total` equals `(200 * count + total) / (2 * total)` in
natural-number division).  Kept only for comparison with the program's
double-precision computation `jsProgress`; the two differ at half-percent
ties. -/
def specRoundPct (count total : Nat) : Nat :=
  if total = 0 then 0 else (200 * count + total) / (2 * total)

/-- `ProcessingRequest` from App.reducer.ts lines 12-18. -/
structure ProcessingRequest where
  status : RequestStatus
  progress : Nat
  processedFiles : StatusMap
  currentProcessingIndex : Nat
  isCancelling : Bool
deriving DecidableEq

/-- `AppState` from App.reducer.ts lines 20-25. -/
structure AppState where
  isDragging : Bool
  files : List FileItem
  outputFolder : Option String
  processingRequest : Option ProcessingRequest
deriving DecidableEq

/-- The reducer actions (App.reducer.ts lines 27-125).  `FILES_SELECTED`
carries the already-converted `FileItem`s: the conversion from browser
`File` objects (`crypto.randomUUID`, `URL.createObjectURL`) is performed by
the environment and is opaque to the state machine. -/
inductive AppAction
  | filesSelected (newFiles : List FileItem)
  | removeFileButtonClicked (index : Nat)
  | clearFilesButtonClicked
  | outputFolderSelected (folder : Option String)
  | dragEntered
  | dragLeft
  | removeBackgroundButtonClicked
  | fileStatusChanged (fileId : String) (status : FileStatus)
  | processingProgressChanged (index : Nat)
  | processingCompleted
  | cancelButtonClicked
  | resetButtonClicked
  | cancelComplete
deriving DecidableEq

/-- The reducer (App.reducer.ts lines 141-321).  `REMOVE_FILE` keeps every
index other than the payload, i.e. erases the payload index;
`OUTPUT_FOLDER_SELECTED` stores `payload || undefined`, so the empty string
becomes `none`. -/
def appReducer (state : AppState) (action : AppAction) : AppState :=
  match action with
  | .filesSelected newFiles =>
      { state with files := state.files ++ newFiles }
  | .removeFileButtonClicked index =>
      { state with files := state.files.eraseIdx index }
  | .clearFilesButtonClicked =>
      { state with files := [], processingRequest := none }
  | .outputFolderSelected folder =>
      { state with
        outputFolder :=
          (match folder with
           | some s => if s = "" then none else some s
           | none => none) }
  | .dragEntered => { state with isDragging := true }
  | .dragLeft => { state with isDragging := false }
  | .removeBackgroundButtonClicked =>
      { state with
        processingRequest :=
          some ({ status := .processing
                  progress := 0
                  processedFiles := state.files.foldl (fun m f => updateMap m f.id .pending) []
                  currentProcessingIndex := 0
                  isCancelling := false }) }
  | .fileStatusChanged fileId status =>
      match state.processingRequest with
      | none => state
      | some req =>
          let updatedProcessedFiles := updateMap req.processedFiles fileId status
          { state with
            processingRequest :=
              some ({ req with
                      processedFiles := updatedProcessedFiles
                      progress := jsProgress (doneCount updatedProcessedFiles) state.files.length }) }
  | .processingProgressChanged index =>
      match state.processingRequest with
      | none => state
      | some req =>
          { state with
            processingRequest :=
              some ({ req with
                      currentProcessingIndex := index
                      progress := jsProgress index state.files.length }) }
  | .processingCompleted =>
      match state.processingRequest with
      | none => state
      | some req =>
          { state with processingRequest := some ({ req with status := .success, progress := 100 }) }
  | .cancelButtonClicked =>
      match state.processingRequest with
      | none => state
      | some req =>
          { state with processingRequest := some ({ req with isCancelling := true }) }
  | .resetButtonClicked =>
      { state with files := [], processingRequest := none }
  | .cancelComplete =>
      { state with processingRequest := none }

/-! ## The sequential processing loop (src/unnamed/part_001, handleStart,
lines 149-208)

`handleStart` iterates the captured file list; per item it dispatches
`processingProgressChanged i` and `fileStatusChanged id processing`, then
awaits `generateMask`, `applyMask` and `save`.  Any of the three throwing
marks the item `error` and the loop continues; success marks it
`completed`.  The cancellation flag (a ref mirroring `isCancelling`) is read
before each item and after each of the three awaited steps; an observed
cancellation dispatches `cancelComplete` and breaks.  After the loop one
final read dispatches `processingCompleted` or `cancelComplete`.

The external steps are modelled by an outcome oracle per item index, and
the cancellation flag by `cancelFrom`: each read of the flag is numbered by
a monotone counter, and the flag is observed true from read number
`cancelFrom` onward (the flag is only ever set, never cleared, while the
loop runs). -/

/-- How the three awaited external steps of one item resolve. -/
inductive Outcome
  | ok
  | failMask
  | failApply
  | failSave
deriving DecidableEq

/-- The status an item ends with when its outcome is `o` and no
cancellation intervenes. -/
def outcomeStatus : Outcome → FileStatus
  | .ok => .completed
  | _ => .error

/-- Whether the `c`-th read of the cancellation flag observes `true`. -/
def cancelObserved (cancelFrom : Option Nat) (c : Nat) : Bool :=
  match cancelFrom with
  | none => false
  | some k => decide (k ≤ c)

/-- The dispatch after the loop (part_001 lines 202-207): one more read of
the flag, then `processingCompleted` or `cancelComplete`. -/
def postLoopTrace (cancelFrom : Option Nat) (c : Nat) : List AppAction :=
  if cancelObserved cancelFrom c then [.cancelComplete] else [.processingCompleted]

/-- The actions dispatched by the `for` loop of `handleStart`
(part_001 lines 154-200) followed by the post-loop dispatch, starting from
the remaining items `rest` at item index `i` with flag-read counter `c`. -/
def processLoop (outcome : Nat → Outcome) (cancelFrom : Option Nat) :
    List FileItem → Nat → Nat → List AppAction
  | [], _, c => postLoopTrace cancelFrom c
  | f :: rest, i, c =>
    if cancelObserved cancelFrom c then
      .cancelComplete :: postLoopTrace cancelFrom (c + 1)
    else
      .processingProgressChanged i :: .fileStatusChanged f.id .processing ::
      (match outcome i with
       | .failMask =>
           .fileStatusChanged f.id .error :: processLoop outcome cancelFrom rest (i + 1) (c + 1)
       | .failApply =>
           if cancelObserved cancelFrom (c + 1) then
             .cancelComplete :: postLoopTrace cancelFrom (c + 2)
           else
             .fileStatusChanged f.id .error :: processLoop outcome cancelFrom rest (i + 1) (c + 2)
       | .failSave =>
           if cancelObserved cancelFrom (c + 1) then
             .cancelComplete :: postLoopTrace cancelFrom (c + 2)
           else if cancelObserved cancelFrom (c + 2) then
             .cancelComplete :: postLoopTrace cancelFrom (c + 3)
           else
             .fileStatusChanged f.id .error :: processLoop outcome cancelFrom rest (i + 1) (c + 3)
       | .ok =>
           if cancelObserved cancelFrom (c + 1) then
             .cancelComplete :: postLoopTrace cancelFrom (c + 2)
           else if cancelObserved cancelFrom (c + 2) then
             .cancelComplete :: postLoopTrace cancelFrom (c + 3)
           else if cancelObserved cancelFrom (c + 3) then
             .cancelComplete :: postLoopTrace cancelFrom (c + 4)
           else
             .fileStatusChanged f.id .completed ::
               processLoop outcome cancelFrom rest (i + 1) (c + 4))

/-- The full dispatch trace of one `handleStart` invocation: the initial
`removeBackgroundButtonClicked` (part_001 line 151) followed by the loop. -/
def handleStartTrace (files : List FileItem) (outcome : Nat → Outcome)
    (cancelFrom : Option Nat) : List AppAction :=
  .removeBackgroundButtonClicked :: processLoop outcome cancelFrom files 0 0

/-- The status the UI reports for a file id in a state:
`processedFiles.get(file.id) || "pending"` (part_001 lines 51 and 333). -/
def itemStatus (s : AppState) (fid : String) : Option FileStatus :=
  s.processingRequest.bind (fun r => mapGet? r.processedFiles fid)

/-! ## The older useState-based App.tsx (cancel path, lines 471-482) -/

/-- The relevant state of the `useState`-based `src/App.tsx`. -/
structure LegacyState where
  files : List FileItem
  isProcessing : Bool
  cancelled : Bool
  processedFiles : StatusMap
  currentProcessingIndex : Nat
deriving DecidableEq

/-- The cancel button handler of the `useState`-based App.tsx
(lines 474-479): sets the cancelled ref, stops processing, and clears the
whole per-item status map. -/
def legacyCancelClick (s : LegacyState) : LegacyState :=
  { s with cancelled := true, isProcessing := false, processedFiles := [] }

/-- `processedFiles.get(file.id) || "pending"` in the legacy file list. -/
def legacyDisplayedStatus (s : LegacyState) (fid : String) : FileStatus :=
  (mapGet? s.processedFiles fid).getD .pending

/-! ## The compositor (src/services/photo.ts, applyMask, lines 1-56)

Images are lists of RGBA pixels (row-major, one list entry per pixel of the
`ImageData` buffer); the mask argument is the mask after `drawImage(mask, 0,
0, canvas.width, canvas.height)` has resampled it to the source dimensions,
so both lists have the source's length.  Channel values live in 0..255.
A store into a `Uint8ClampedArray` element clamps to [0, 255] and rounds
half to even; the store is modelled over exact rationals (for the values
arising here, `(r+g+b)/3` is never half-way between integers, so the
double-precision evaluation of the source rounds identically). -/

/-- One RGBA pixel of an `ImageData` buffer. -/
structure Pixel where
  r : Nat
  g : Nat
  b : Nat
  a : Nat
deriving DecidableEq

/-- A store into a `Uint8ClampedArray` element: clamp to [0, 255], round
half to even. -/
def u8Clamped (q : ℚ) : Nat :=
  if q ≤ 0 then 0
  else if 255 ≤ q then 255
  else if q - (⌊q⌋ : ℚ) < 1/2 then (⌊q⌋).toNat
  else if (1 : ℚ)/2 < q - (⌊q⌋ : ℚ) then (⌊q⌋ + 1).toNat
  else if ⌊q⌋ % 2 = 0 then (⌊q⌋).toNat
  else (⌊q⌋ + 1).toNat

/-- `const brightness = (data[i] + data[i+1] + data[i+2]) / 3`
(photo.ts line 30). -/
def brightness (r g b : Nat) : ℚ :=
  ((r + g + b : Nat) : ℚ) / 3

/-- The body of the luma-to-alpha loop (photo.ts lines 28-33):
`data[i + 3] = brightness`, the colour channels unchanged. -/
def lumaAlpha (p : Pixel) : Pixel :=
  { p with a := u8Clamped (brightness p.r p.g p.b) }

/-- One pixel of `globalCompositeOperation = "source-in"` followed by
drawing the photo (photo.ts lines 36-41): the result colour is the source
(photo) colour and the result alpha is the product of the source alpha and
the destination (mask-derived) alpha. -/
def sourceIn (dest src : Pixel) : Pixel :=
  { r := src.r, g := src.g, b := src.b
    a := u8Clamped (((src.a * dest.a : Nat) : ℚ) / 255) }

/-- `applyMask` (photo.ts lines 1-56): draw the resampled mask, convert its
luma to alpha, then draw the photo with `source-in`.  The returned value is
the RGBA buffer handed to the (external, deterministic) PNG encoder. -/
def applyMask (photo maskImg : List Pixel) : List Pixel :=
  let maskWithAlpha := maskImg.map lumaAlpha
  List.zipWith (fun dest src => sourceIn dest src) maskWithAlpha photo

/-! ## The naming policy (src/unnamed/part_000, createFileName, lines 81-90)

`createFileName` calls the Tauri path helpers and JavaScript string
replacement:
* `basename(p)` (no extension argument) returns the final path component,
  extension included,
* `extname(p)` returns the extension of the final component without the
  leading dot (Rust `Path::extension` semantics: no dot, or a leading dot
  as the only dot, yields an error, modelled as `none`),
* `baseFilename.replace(extension, "")` removes the first occurrence of
  the extension string (not necessarily the final one, and not the dot). -/

/-- The final path component: the characters after the last `/`.
(The claims only involve plain file names; Windows separators are not
modelled.) -/
def basenameChars (l : List Char) : List Char :=
  (l.reverse.takeWhile (fun c => c ≠ '/')).reverse

/-- Tauri `extname`: the extension of the final component, without the
leading dot; `none` when Rust `Path::extension` is `None` (no dot, or the
only dot leading a hidden file). -/
def extnameChars (l : List Char) : Option (List Char) :=
  if '.' ∈ basenameChars l then
    if ((basenameChars l).reverse.dropWhile (fun c => c ≠ '.')).tail = [] then none
    else some ((basenameChars l).reverse.takeWhile (fun c => c ≠ '.')).reverse
  else none

/-- JavaScript `s.replace(pat, "")` with a string pattern: remove the first
occurrence of `pat`. -/
def removeFirst : List Char → List Char → List Char
  | [], _ => []
  | c :: rest, pat =>
      if pat.isPrefixOf (c :: rest) then (c :: rest).drop pat.length
      else c :: removeFirst rest pat

/-- `createFileName` (part_000 lines 81-90): strip the first occurrence of
the extension characters from the basename and append `-clipped.png`.
`none` models the promise rejecting when `extname` fails. -/
def createFileName (fileName : String) : Option String :=
  match extnameChars fileName.data with
  | none => none
  | some ext =>
      some (String.mk
        (removeFirst (basenameChars fileName.data) ext ++ "-clipped.png".data))

/-! ## Basic lemmas about the status map -/

/-- The status map whose keys are the ids of `F` in order and whose values
are `sts`, positionally. -/
def statusZip (F : List FileItem) (sts : List FileStatus) : StatusMap :=
  List.zipWith (fun f st => (f.id, st)) F sts

theorem statusZip_cons (f : FileItem) (F : List FileItem) (st : FileStatus)
    (sts : List FileStatus) :
    statusZip (f :: F) (st :: sts) = (f.id, st) :: statusZip F sts := rfl

theorem mapKeys_statusZip (F : List FileItem) (sts : List FileStatus)
    (hlen : sts.length = F.length) :
    mapKeys (statusZip F sts) = F.map FileItem.id := by
  induction F generalizing sts with
  | nil => simp [statusZip, mapKeys]
  | cons f F ih =>
    cases sts with
    | nil => simp at hlen
    | cons st sts =>
      simp only [List.length_cons, Nat.succ_inj] at hlen
      have := ih sts hlen
      simp only [statusZip, mapKeys, List.zipWith_cons_cons, List.map_cons] at this ⊢
      rw [this]

theorem mapGet?_updateMap (m : StatusMap) (k : String) (v : FileStatus) (q : String) :
    mapGet? (updateMap m k v) q = if k = q then some v else mapGet? m q := by
  induction m with
  | nil =>
    by_cases h : k = q <;> simp [updateMap, mapGet?, h]
  | cons p rest ih =>
    obtain ⟨k1, v1⟩ := p
    by_cases h1 : k1 = k
    · subst h1
      by_cases h2 : k1 = q <;> simp [updateMap, mapGet?, h2]
    · by_cases h2 : k1 = q
      · subst h2
        have hkq : ¬ k = k1 := fun h => h1 h.symm
        simp [updateMap, mapGet?, h1, hkq]
      · by_cases h3 : k = q
        · subst h3
          simp [updateMap, mapGet?, h1, h2, ih]
        · simp [updateMap, mapGet?, h1, h2, h3, ih]

theorem updateMap_fresh (m : StatusMap) (k : String) (v : FileStatus)
    (h : k ∉ mapKeys m) : updateMap m k v = m ++ [(k, v)] := by
  induction m with
  | nil => simp [updateMap]
  | cons p rest ih =>
    obtain ⟨k1, v1⟩ := p
    simp only [mapKeys, List.map_cons, List.mem_cons, not_or] at h
    have hne : k1 ≠ k := fun hk => h.1 hk.symm
    simp only [updateMap, hne, if_false, List.cons_append]
    rw [ih (by simpa [mapKeys] using h.2)]

theorem updateMap_statusZip (F : List FileItem) (sts : List FileStatus)
    (i : Nat) (f : FileItem) (v : FileStatus)
    (hnd : (F.map FileItem.id).Nodup) (hlen : sts.length = F.length)
    (hget : F[i]? = some f) :
    updateMap (statusZip F sts) f.id v = statusZip F (sts.set i v) := by
  induction F generalizing sts i with
  | nil => simp at hget
  | cons g F ih =>
    cases sts with
    | nil => simp at hlen
    | cons st sts =>
      simp only [List.length_cons, Nat.succ_inj] at hlen
      simp only [List.map_cons, List.nodup_cons] at hnd
      cases i with
      | zero =>
        simp only [List.getElem?_cons_zero, Option.some_inj] at hget
        subst hget
        simp [statusZip, updateMap, List.set, List.zipWith_cons_cons]
      | succ i =>
        simp only [List.getElem?_cons_succ] at hget
        have hmem : f ∈ F := List.getElem?_mem hget
        have hne : g.id ≠ f.id := by
          intro he
          exact hnd.1 (he ▸ List.mem_map_of_mem FileItem.id hmem)
        have hih := ih sts i hnd.2 hlen hget
        simp only [statusZip] at hih ⊢
        simp [List.zipWith_cons_cons, updateMap, hne, List.set, hih]

theorem mapGet?_statusZip (F : List FileItem) (sts : List FileStatus)
    (i : Nat) (f : FileItem)
    (hnd : (F.map FileItem.id).Nodup) (hlen : sts.length = F.length)
    (hget : F[i]? = some f) :
    mapGet? (statusZip F sts) f.id = sts[i]? := by
  induction F generalizing sts i with
  | nil => simp at hget
  | cons g F ih =>
    cases sts with
    | nil => simp at hlen
    | cons st sts =>
      simp only [List.length_cons, Nat.succ_inj] at hlen
      simp only [List.map_cons, List.nodup_cons] at hnd
      cases i with
      | zero =>
        simp only [List.getElem?_cons_zero, Option.some_inj] at hget
        subst hget
        simp [statusZip, mapGet?, List.zipWith_cons_cons]
      | succ i =>
        simp only [List.getElem?_cons_succ] at hget
        have hmem : f ∈ F := List.getElem?_mem hget
        have hne : g.id ≠ f.id := by
          intro he
          exact hnd.1 (he ▸ List.mem_map_of_mem FileItem.id hmem)
        have hih := ih sts i hnd.2 hlen hget
        have hgne : g.id ≠ f.id := hne
        simp only [statusZip] at hih ⊢
        simp only [List.zipWith_cons_cons, mapGet?, List.getElem?_cons_succ]
        simp [fun h => hgne h, hih]

theorem doneCount_statusZip (F : List FileItem) (sts : List FileStatus)
    (hlen : sts.length = F.length) :
    doneCount (statusZip F sts) = (sts.filter isDone).length := by
  induction F generalizing sts with
  | nil =>
    cases sts with
    | nil => simp [statusZip, doneCount]
    | cons st sts => simp at hlen
  | cons g F ih =>
    cases sts with
    | nil => simp at hlen
    | cons st sts =>
      simp only [List.length_cons, Nat.succ_inj] at hlen
      by_cases h : isDone st <;>
        simp [statusZip_cons, doneCount, List.filter_cons, h, ← ih sts hlen, doneCount]

theorem statusZip_replicate (F : List FileItem) :
    statusZip F (List.replicate F.length .pending) =
      F.map (fun f => (f.id, FileStatus.pending)) := by
  induction F with
  | nil => rfl
  | cons f F ih => simpa [List.replicate, statusZip_cons] using ih

theorem buildInitial_eq (F : List FileItem) (hnd : (F.map FileItem.id).Nodup) :
    F.foldl (fun m f => updateMap m f.id .pending) [] =
      statusZip F (List.replicate F.length .pending) := by
  rw [statusZip_replicate]
  suffices h : ∀ (G : List FileItem) (acc : StatusMap),
      (G.map FileItem.id).Nodup →
      (∀ g ∈ G, g.id ∉ mapKeys acc) →
      G.foldl (fun m f => updateMap m f.id .pending) acc =
        acc ++ G.map (fun f => (f.id, FileStatus.pending)) by
    simpa using h F [] hnd (by simp [mapKeys])
  intro G
  induction G with
  | nil => intro acc _ _; simp
  | cons g G ih =>
    intro acc hnd hfresh
    simp only [List.map_cons, List.nodup_cons] at hnd
    have h1 : g.id ∉ mapKeys acc := hfresh g (List.mem_cons_self g G)
    simp only [List.foldl_cons, List.map_cons]
    rw [updateMap_fresh acc g.id FileStatus.pending h1]
    rw [ih (acc ++ [(g.id, FileStatus.pending)]) hnd.2 ?_]
    · simp
    · intro x hx
      have h2 : x.id ∉ mapKeys acc := hfresh x (List.mem_cons_of_mem g hx)
      have h3 : x.id ≠ g.id := by
        intro he
        exact hnd.1 (he ▸ List.mem_map_of_mem FileItem.id hx)
      simp only [mapKeys, List.map_append, List.mem_append, List.map_cons, List.map_nil,
        List.mem_singleton, not_or]
      refine ⟨?_, h3⟩
      simpa [mapKeys] using h2

/-! ## Arithmetic and list helpers -/

theorem set_append_cons {α : Type} (l1 : List α) (a : α) (l2 : List α) (v : α) :
    (l1 ++ a :: l2).set l1.length v = l1 ++ v :: l2 := by
  induction l1 with
  | nil => rfl
  | cons x l1 ih => simp [List.set, ih]

theorem filter_isDone_replicate (m : Nat) :
    (List.replicate m FileStatus.pending).filter isDone = [] := by
  induction m with
  | zero => rfl
  | succ m ih => simp [List.replicate, List.filter_cons, isDone, ih]

theorem filter_isDone_append_replicate (done : List FileStatus) (m : Nat)
    (h : ∀ st ∈ done, isDone st = true) :
    (done ++ List.replicate m FileStatus.pending).filter isDone = done := by
  rw [List.filter_append, filter_isDone_replicate, List.append_nil, List.filter_eq_self.mpr h]

theorem filter_isDone_append_processing (done : List FileStatus) (m : Nat)
    (h : ∀ st ∈ done, isDone st = true) :
    (done ++ FileStatus.processing :: List.replicate m FileStatus.pending).filter isDone
      = done := by
  rw [List.filter_append]
  simp [List.filter_cons, isDone, filter_isDone_replicate, List.filter_eq_self.mpr h]

theorem toDouble_zero : toDouble 0 = 0 := by
  unfold toDouble
  rw [if_pos rfl]

/-- Evaluate `toDouble` at a positive rational from the leading-bit bounds
`2^e ≤ q < 2^(e+1)`, the scaled-significand decomposition
`q / 2^(e-52) = n + f` with `0 ≤ f < 1/2` (round down), and the value of
`n * 2^(e-52)`. -/
theorem toDouble_eq_of (q r : ℚ) (e n : ℤ) (f : ℚ)
    (hq : 0 < q) (h1 : (2 : ℚ) ^ e ≤ q) (h2 : q < 2 ^ (e + 1))
    (hs : q / 2 ^ (e - 52) = (n : ℚ) + f) (hf0 : 0 ≤ f) (hfh : f < 1/2)
    (hr : (n : ℚ) * 2 ^ (e - 52) = r) :
    toDouble q = r := by
  have hcast : (((2 : ℕ) : ℚ)) = (2 : ℚ) := by norm_num
  have ha : e ≤ Int.log 2 q :=
    (Int.zpow_le_iff_le_log (by norm_num) hq).mp (by rw [hcast]; exact h1)
  have hb : Int.log 2 q < e + 1 :=
    (Int.lt_zpow_iff_log_lt (by norm_num) hq).mp (by rw [hcast]; exact h2)
  have hlog : Int.log 2 q = e := by omega
  have hfl : ⌊q / 2 ^ (e - 52)⌋ = n := by
    rw [hs, Int.floor_eq_iff]
    constructor
    · linarith
    · linarith
  have hrhe : roundHalfEven (q / 2 ^ (e - 52)) = n := by
    unfold roundHalfEven
    rw [hfl, hs]
    rw [if_pos (by rw [add_sub_cancel_left]; exact hfh)]
  unfold toDouble
  rw [if_neg (ne_of_gt hq), if_pos hq]
  unfold toDoublePos
  rw [hlog, hrhe, hr]

theorem toDouble_one : toDouble 1 = 1 :=
  toDouble_eq_of 1 1 0 4503599627370496 0 (by norm_num) (by norm_num) (by norm_num)
    (by norm_num) (by norm_num) (by norm_num) (by norm_num)

theorem toDouble_hundred : toDouble 100 = 100 :=
  toDouble_eq_of 100 100 6 7036874417766400 0 (by norm_num) (by norm_num) (by norm_num)
    (by norm_num) (by norm_num) (by norm_num) (by norm_num)

/-- The binary64 quotient `23 / 40` falls short of the exact `0.575`. -/
theorem toDouble_div_23_40 : toDouble ((23 : ℚ) / 40) = 5179139571476070 / 2 ^ 53 :=
  toDouble_eq_of ((23 : ℚ) / 40) (5179139571476070 / 2 ^ 53) (-1) 5179139571476070 (2/5)
    (by norm_num) (by norm_num) (by norm_num) (by norm_num) (by norm_num) (by norm_num)
    (by norm_num)

/-- Multiplying that quotient by 100 yields the double just below `57.5`. -/
theorem toDouble_mul_23_40 :
    toDouble ((5179139571476070 : ℚ) / 2 ^ 53 * 100) = 8092405580431359 / 2 ^ 47 :=
  toDouble_eq_of ((5179139571476070 : ℚ) / 2 ^ 53 * 100) (8092405580431359 / 2 ^ 47)
    5 8092405580431359 (3/8)
    (by norm_num) (by norm_num) (by norm_num) (by norm_num) (by norm_num) (by norm_num)
    (by norm_num)

theorem jsProgress_zero (t : Nat) : jsProgress 0 t = 0 := by
  unfold jsProgress
  rcases Nat.eq_zero_or_pos t with h | h
  · simp [h]
  · rw [if_neg (by omega : ¬t = 0)]
    rw [Nat.cast_zero, zero_div, toDouble_zero, zero_mul, toDouble_zero]
    have hfl : ⌊(0 : ℚ) + 1/2⌋ = 0 := by
      rw [Int.floor_eq_iff]
      constructor <;> norm_num
    rw [hfl]
    rfl

theorem jsProgress_self (t : Nat) (h : 0 < t) : jsProgress t t = 100 := by
  unfold jsProgress
  rw [if_neg (by omega : ¬t = 0)]
  have ht : ((t : ℕ) : ℚ) ≠ 0 := Nat.cast_ne_zero.mpr (by omega)
  rw [div_self ht, toDouble_one, one_mul, toDouble_hundred]
  have hfl : ⌊(100 : ℚ) + 1/2⌋ = 100 := by
    rw [Int.floor_eq_iff]
    constructor <;> norm_num
  rw [hfl]
  rfl

/-- With 23 of 40 items finished the program computes 57, not the 58 that
rounding the exact ratio `57.5` would give: both intermediate doubles fall
just below the exact value. -/
theorem jsProgress_23_40 : jsProgress 23 40 = 57 := by
  unfold jsProgress
  rw [if_neg (by norm_num : ¬(40 : Nat) = 0)]
  have hc : (((23 : Nat) : ℚ)) / (((40 : Nat) : ℚ)) = (23 : ℚ) / 40 := by norm_num
  rw [hc, toDouble_div_23_40, toDouble_mul_23_40]
  have hfl : ⌊(8092405580431359 : ℚ) / 2 ^ 47 + 1/2⌋ = 57 := by
    rw [Int.floor_eq_iff]
    constructor <;> norm_num
  rw [hfl]
  rfl

/-! ## scanl and Chain helpers -/

theorem scanl_nil_eq {α β : Type} (f : β → α → β) (b : β) : List.scanl f b [] = [b] := rfl

theorem scanl_cons_eq {α β : Type} (f : β → α → β) (b : β) (a : α) (l : List α) :
    List.scanl f b (a :: l) = b :: List.scanl f (f b a) l := rfl

theorem forall_mem_scanl_nil {α β : Type} {P : β → Prop} {f : β → α → β} {b : β}
    (hb : P b) : ∀ x ∈ List.scanl f b [], P x := by
  intro x hx
  rw [scanl_nil_eq, List.mem_singleton] at hx
  exact hx ▸ hb

theorem forall_mem_scanl_cons {α β : Type} {P : β → Prop} {f : β → α → β} {b : β} {a : α}
    {l : List α} (hb : P b) (h : ∀ x ∈ List.scanl f (f b a) l, P x) :
    ∀ x ∈ List.scanl f b (a :: l), P x := by
  intro x hx
  rw [scanl_cons_eq, List.mem_cons] at hx
  rcases hx with h1 | h1
  · exact h1 ▸ hb
  · exact h x h1

theorem scanl_head {α β : Type} (f : β → α → β) (b : β) (l : List α) :
    (List.scanl f b l).head? = some b := by
  cases l <;> rfl

theorem chain'_scanl_nil {α β : Type} {R : β → β → Prop} {f : β → α → β} {b : β} :
    List.Chain' R (List.scanl f b []) := by
  rw [scanl_nil_eq]
  exact List.chain'_singleton b

theorem chain'_scanl_cons {α β : Type} {R : β → β → Prop} {f : β → α → β} {b : β} {a : α}
    {l : List α} (hR : R b (f b a)) (h : List.Chain' R (List.scanl f (f b a) l)) :
    List.Chain' R (List.scanl f b (a :: l)) := by
  rw [scanl_cons_eq]
  refine List.chain'_cons'.mpr ⟨?_, h⟩
  intro y hy
  rw [scanl_head] at hy
  cases hy
  exact hR

/-! ## Run invariants -/

/-- The states reached while a trace of actions is dispatched from `s`,
including `s` itself. -/
abbrev loopStates (s : AppState) (tr : List AppAction) : List AppState :=
  List.scanl appReducer s tr

/-- The status map has exactly the keys of the run-start file list, and the
progress field equals the rounded percentage of completed-or-error entries
of the authoritative map. -/
def runInv (F : List FileItem) (s : AppState) : Prop :=
  s.files = F ∧
  ∀ r, s.processingRequest = some r →
    mapKeys r.processedFiles = F.map FileItem.id ∧
    r.progress = jsProgress (doneCount r.processedFiles) F.length

/-- Between two consecutive states, an item that had a terminal
(completed/error) status keeps it, unless the whole run record was
discarded. -/
def terminalPreserved (s s' : AppState) : Prop :=
  ∀ fid st, isDone st = true → itemStatus s fid = some st →
    s'.processingRequest = none ∨ itemStatus s' fid = some st

/-- Loop invariant at the top of iteration `done.length`: the first
`done.length` items carry the terminal statuses `done`, the rest are
pending, and progress reflects `done.length` finished items. -/
def phaseA (F : List FileItem) (done : List FileStatus) (s : AppState) : Prop :=
  s.files = F ∧
  (∀ st ∈ done, isDone st = true) ∧
  ∃ r, s.processingRequest = some r ∧
    r.status = .processing ∧
    r.processedFiles =
      statusZip F (done ++ List.replicate (F.length - done.length) FileStatus.pending) ∧
    r.progress = jsProgress done.length F.length

/-- Loop invariant after the current item was marked `processing`. -/
def phaseB (F : List FileItem) (done : List FileStatus) (s : AppState) : Prop :=
  s.files = F ∧
  (∀ st ∈ done, isDone st = true) ∧
  ∃ r, s.processingRequest = some r ∧
    r.status = .processing ∧
    r.processedFiles =
      statusZip F (done ++ FileStatus.processing ::
        List.replicate (F.length - done.length - 1) FileStatus.pending) ∧
    r.progress = jsProgress done.length F.length

theorem phaseA_runInv (F : List FileItem) (done : List FileStatus) (s : AppState)
    (hle : done.length ≤ F.length) (h : phaseA F done s) : runInv F s := by
  obtain ⟨hf, hdone, r, hr, _, hmap, hprog⟩ := h
  refine ⟨hf, ?_⟩
  intro r' hr'
  rw [hr, Option.some_inj] at hr'
  subst hr'
  have hlen : (done ++ List.replicate (F.length - done.length) FileStatus.pending).length
      = F.length := by
    simp only [List.length_append, List.length_replicate]
    omega
  constructor
  · rw [hmap]
    exact mapKeys_statusZip F _ hlen
  · rw [hmap, doneCount_statusZip F _ hlen, filter_isDone_append_replicate done _ hdone, hprog]

theorem phaseB_runInv (F : List FileItem) (done : List FileStatus) (s : AppState)
    (hlt : done.length < F.length) (h : phaseB F done s) : runInv F s := by
  obtain ⟨hf, hdone, r, hr, _, hmap, hprog⟩ := h
  refine ⟨hf, ?_⟩
  intro r' hr'
  rw [hr, Option.some_inj] at hr'
  subst hr'
  have hlen : (done ++ FileStatus.processing ::
      List.replicate (F.length - done.length - 1) FileStatus.pending).length = F.length := by
    simp only [List.length_append, List.length_cons, List.length_replicate]
    omega
  constructor
  · rw [hmap]
    exact mapKeys_statusZip F _ hlen
  · rw [hmap, doneCount_statusZip F _ hlen, filter_isDone_append_processing done _ hdone, hprog]

theorem itemStatus_some (s : AppState) (r : ProcessingRequest)
    (h : s.processingRequest = some r) (fid : String) :
    itemStatus s fid = mapGet? r.processedFiles fid := by
  simp [itemStatus, h]

theorem terminalPreserved_of_get (s s' : AppState)
    (h : ∀ fid, itemStatus s' fid = itemStatus s fid) : terminalPreserved s s' := by
  intro fid st _ hst
  right
  rw [h fid]
  exact hst

theorem terminalPreserved_none (s s' : AppState) (h : s'.processingRequest = none) :
    terminalPreserved s s' :=
  fun _ _ _ _ => Or.inl h

theorem terminalPreserved_update (s s' : AppState) (k : String)
    (hk : ∀ st, itemStatus s k = some st → isDone st = false)
    (hothers : ∀ fid, fid ≠ k → itemStatus s' fid = itemStatus s fid) :
    terminalPreserved s s' := by
  intro fid st hdone hst
  by_cases hf : fid = k
  · subst hf
    rw [hk st hst] at hdone
    exact absurd hdone (by simp)
  · right
    rw [hothers fid hf]
    exact hst

/-! ## Reducer step equations -/

theorem appReducer_progressChanged (s : AppState) (r : ProcessingRequest) (i : Nat)
    (h : s.processingRequest = some r) :
    appReducer s (.processingProgressChanged i) =
      { s with
        processingRequest :=
          some ({ r with
                  currentProcessingIndex := i
                  progress := jsProgress i s.files.length }) } := by
  simp [appReducer, h]

theorem appReducer_fileStatusChanged (s : AppState) (r : ProcessingRequest)
    (fid : String) (st : FileStatus) (h : s.processingRequest = some r) :
    appReducer s (.fileStatusChanged fid st) =
      { s with
        processingRequest :=
          some ({ r with
                  processedFiles := updateMap r.processedFiles fid st
                  progress := jsProgress (doneCount (updateMap r.processedFiles fid st))
                    s.files.length }) } := by
  simp [appReducer, h]

theorem appReducer_processingCompleted (s : AppState) (r : ProcessingRequest)
    (h : s.processingRequest = some r) :
    appReducer s .processingCompleted =
      { s with processingRequest := some ({ r with status := .success, progress := 100 }) } := by
  simp [appReducer, h]

theorem appReducer_cancelComplete (s : AppState) :
    appReducer s .cancelComplete = { s with processingRequest := none } := rfl

theorem cancelObserved_mono (cancelFrom : Option Nat) {c c' : Nat}
    (h : cancelObserved cancelFrom c = true) (hle : c ≤ c') :
    cancelObserved cancelFrom c' = true := by
  cases cancelFrom with
  | none => simp [cancelObserved] at h
  | some k =>
    simp only [cancelObserved, decide_eq_true_eq] at h ⊢
    omega

/-! ## Drop and indexing helpers -/

theorem getElem?_of_drop {α : Type} (l : List α) (i : Nat) (a : α) (t : List α)
    (h : l.drop i = a :: t) : l[i]? = some a := by
  have h0 : (l.drop i)[0]? = some a := by rw [h]; simp
  rw [List.getElem?_drop] at h0
  simpa using h0

theorem lt_length_of_drop {α : Type} (l : List α) (i : Nat) (a : α) (t : List α)
    (h : l.drop i = a :: t) : i < l.length := by
  by_contra hle
  push_neg at hle
  rw [List.drop_eq_nil_of_le hle] at h
  exact List.noConfusion h

theorem drop_succ_of_drop {α : Type} (l : List α) (i : Nat) (a : α) (t : List α)
    (h : l.drop i = a :: t) : l.drop (i + 1) = t := by
  have h1 := congrArg (List.drop 1) h
  rw [List.drop_drop] at h1
  simpa [Nat.add_comm] using h1

theorem getElem?_append_length {α : Type} (l1 : List α) (a : α) (l2 : List α) :
    (l1 ++ a :: l2)[l1.length]? = some a := by
  induction l1 with
  | nil => simp
  | cons x l1 ih => simpa using ih

theorem filter_isDone_append_done (done : List FileStatus) (st : FileStatus) (m : Nat)
    (h : ∀ x ∈ done, isDone x = true) (hst : isDone st = true) :
    (done ++ st :: List.replicate m FileStatus.pending).filter isDone = done ++ [st] := by
  rw [List.filter_append]
  simp [List.filter_cons, hst, filter_isDone_replicate, List.filter_eq_self.mpr h]

/-! ## Chain links for the individual dispatches -/

theorem runInv_cancelComplete (F : List FileItem) (s : AppState) (h : runInv F s) :
    runInv F (appReducer s .cancelComplete) := by
  obtain ⟨hf, _⟩ := h
  refine ⟨hf, ?_⟩
  intro r hr
  simp [appReducer] at hr

theorem terminalPreserved_progressChanged (s : AppState) (i : Nat) :
    terminalPreserved s (appReducer s (.processingProgressChanged i)) := by
  cases h : s.processingRequest with
  | none =>
    apply terminalPreserved_of_get
    intro fid
    simp [appReducer, h]
  | some r =>
    apply terminalPreserved_of_get
    intro fid
    rw [appReducer_progressChanged s r i h]
    simp [itemStatus, h]

theorem terminalPreserved_processingCompleted (s : AppState) :
    terminalPreserved s (appReducer s .processingCompleted) := by
  cases h : s.processingRequest with
  | none =>
    apply terminalPreserved_of_get
    intro fid
    simp [appReducer, h]
  | some r =>
    apply terminalPreserved_of_get
    intro fid
    rw [appReducer_processingCompleted s r h]
    simp [itemStatus, h]

theorem terminalPreserved_fileStatusChanged (s : AppState) (r : ProcessingRequest)
    (k : String) (v : FileStatus) (h : s.processingRequest = some r)
    (hold : ∀ st, mapGet? r.processedFiles k = some st → isDone st = false) :
    terminalPreserved s (appReducer s (.fileStatusChanged k v)) := by
  apply terminalPreserved_update _ _ k
  · intro st hst
    rw [itemStatus_some s r h] at hst
    exact hold st hst
  · intro fid hf
    rw [appReducer_fileStatusChanged s r k v h, itemStatus_some s r h]
    have hne : ¬ k = fid := fun he => hf he.symm
    simp [itemStatus, mapGet?_updateMap, hne]

/-- The two `cancelComplete` dispatches that end a cancelled run. -/
theorem cancelPair_spec (F : List FileItem) (s : AppState) (hs : runInv F s) :
    (∀ x ∈ loopStates s [.cancelComplete, .cancelComplete], runInv F x) ∧
    List.Chain' terminalPreserved (loopStates s [.cancelComplete, .cancelComplete]) ∧
    (List.foldl appReducer s
        [.cancelComplete, .cancelComplete]).processingRequest = none := by
  refine ⟨?_, ?_, ?_⟩
  · exact forall_mem_scanl_cons hs (forall_mem_scanl_cons
      (runInv_cancelComplete F s hs)
      (forall_mem_scanl_nil
        (runInv_cancelComplete F _ (runInv_cancelComplete F s hs))))
  · exact chain'_scanl_cons (terminalPreserved_none _ _ rfl)
      (chain'_scanl_cons (terminalPreserved_none _ _ rfl) chain'_scanl_nil)
  · rfl

/-! ## Phase transitions of the loop body -/

theorem step_progress_phase (F : List FileItem) (done : List FileStatus) (s : AppState)
    (h : phaseA F done s) :
    phaseA F done (appReducer s (.processingProgressChanged done.length)) := by
  obtain ⟨hf, hdone, r, hr, hst, hmap, hprog⟩ := h
  rw [appReducer_progressChanged s r done.length hr]
  exact ⟨hf, hdone, _, rfl, hst, hmap, by rw [hf]⟩

theorem phaseA_get_current (F : List FileItem) (done : List FileStatus) (s : AppState)
    (f : FileItem) (r : ProcessingRequest)
    (hnd : (F.map FileItem.id).Nodup)
    (hA : phaseA F done s) (hget : F[done.length]? = some f)
    (hlt : done.length < F.length) (hr : s.processingRequest = some r) :
    mapGet? r.processedFiles f.id = some FileStatus.pending := by
  obtain ⟨_, _, r', hr', _, hmap, _⟩ := hA
  rw [hr', Option.some_inj] at hr
  subst hr
  have hlen : (done ++ List.replicate (F.length - done.length) FileStatus.pending).length
      = F.length := by
    simp only [List.length_append, List.length_replicate]
    omega
  have hrep : List.replicate (F.length - done.length) FileStatus.pending
      = FileStatus.pending :: List.replicate (F.length - done.length - 1) FileStatus.pending := by
    have h1 : F.length - done.length = (F.length - done.length - 1) + 1 := by omega
    rw [h1, List.replicate_succ]
    simp
  rw [hmap, mapGet?_statusZip F _ done.length f hnd hlen hget, hrep,
    getElem?_append_length]

theorem phaseB_get_current (F : List FileItem) (done : List FileStatus) (s : AppState)
    (f : FileItem) (r : ProcessingRequest)
    (hnd : (F.map FileItem.id).Nodup)
    (hB : phaseB F done s) (hget : F[done.length]? = some f)
    (hlt : done.length < F.length) (hr : s.processingRequest = some r) :
    mapGet? r.processedFiles f.id = some FileStatus.processing := by
  obtain ⟨_, _, r', hr', _, hmap, _⟩ := hB
  rw [hr', Option.some_inj] at hr
  subst hr
  have hlen : (done ++ FileStatus.processing ::
      List.replicate (F.length - done.length - 1) FileStatus.pending).length = F.length := by
    simp only [List.length_append, List.length_cons, List.length_replicate]
    omega
  rw [hmap, mapGet?_statusZip F _ done.length f hnd hlen hget, getElem?_append_length]

theorem step_processing_phase (F : List FileItem) (done : List FileStatus) (s : AppState)
    (f : FileItem) (rest : List FileItem)
    (hnd : (F.map FileItem.id).Nodup)
    (hdrop : F.drop done.length = f :: rest)
    (hA : phaseA F done s) :
    phaseB F done (appReducer s (.fileStatusChanged f.id .processing)) := by
  have hget : F[done.length]? = some f := getElem?_of_drop F done.length f rest hdrop
  have hlt : done.length < F.length := lt_length_of_drop F done.length f rest hdrop
  obtain ⟨hf, hdone, r, hr, hst, hmap, hprog⟩ := hA
  rw [appReducer_fileStatusChanged s r f.id .processing hr]
  have hlen : (done ++ List.replicate (F.length - done.length) FileStatus.pending).length
      = F.length := by
    simp only [List.length_append, List.length_replicate]
    omega
  have hrep : List.replicate (F.length - done.length) FileStatus.pending
      = FileStatus.pending :: List.replicate (F.length - done.length - 1) FileStatus.pending := by
    have h1 : F.length - done.length = (F.length - done.length - 1) + 1 := by omega
    rw [h1, List.replicate_succ]
    simp
  have hset : (done ++ List.replicate (F.length - done.length) FileStatus.pending).set
      done.length FileStatus.processing
      = done ++ FileStatus.processing ::
          List.replicate (F.length - done.length - 1) FileStatus.pending := by
    rw [hrep, set_append_cons]
  have hmap' : updateMap r.processedFiles f.id FileStatus.processing
      = statusZip F (done ++ FileStatus.processing ::
          List.replicate (F.length - done.length - 1) FileStatus.pending) := by
    rw [hmap, updateMap_statusZip F _ done.length f _ hnd hlen hget, hset]
  have hlen' : (done ++ FileStatus.processing ::
      List.replicate (F.length - done.length - 1) FileStatus.pending).length = F.length := by
    simp only [List.length_append, List.length_cons, List.length_replicate]
    omega
  refine ⟨hf, hdone, _, rfl, hst, hmap', ?_⟩
  rw [hmap', doneCount_statusZip F _ hlen', filter_isDone_append_processing done _ hdone, hf]

theorem step_finish_phase (F : List FileItem) (done : List FileStatus) (s : AppState)
    (f : FileItem) (rest : List FileItem) (st : FileStatus)
    (hnd : (F.map FileItem.id).Nodup)
    (hdrop : F.drop done.length = f :: rest)
    (hB : phaseB F done s) (hst : isDone st = true) :
    phaseA F (done ++ [st]) (appReducer s (.fileStatusChanged f.id st)) := by
  have hget : F[done.length]? = some f := getElem?_of_drop F done.length f rest hdrop
  have hlt : done.length < F.length := lt_length_of_drop F done.length f rest hdrop
  obtain ⟨hf, hdone, r, hr, hsta, hmap, hprog⟩ := hB
  rw [appReducer_fileStatusChanged s r f.id st hr]
  have hlen : (done ++ FileStatus.processing ::
      List.replicate (F.length - done.length - 1) FileStatus.pending).length = F.length := by
    simp only [List.length_append, List.length_cons, List.length_replicate]
    omega
  have hset : (done ++ FileStatus.processing ::
      List.replicate (F.length - done.length - 1) FileStatus.pending).set done.length st
      = done ++ st :: List.replicate (F.length - done.length - 1) FileStatus.pending :=
    set_append_cons done _ _ st
  have hmap' : updateMap r.processedFiles f.id st
      = statusZip F ((done ++ [st]) ++
          List.replicate (F.length - (done ++ [st]).length) FileStatus.pending) := by
    rw [hmap, updateMap_statusZip F _ done.length f _ hnd hlen hget, hset]
    have h1 : F.length - (done ++ [st]).length = F.length - done.length - 1 := by
      simp only [List.length_append, List.length_singleton]
      omega
    rw [h1, List.append_assoc, List.singleton_append]
  have hdone' : ∀ x ∈ done ++ [st], isDone x = true := by
    intro x hx
    rcases List.mem_append.mp hx with h1 | h1
    · exact hdone x h1
    · rw [List.mem_singleton.mp h1]
      exact hst
  have hlen' : ((done ++ [st]) ++
      List.replicate (F.length - (done ++ [st]).length) FileStatus.pending).length
      = F.length := by
    simp only [List.length_append, List.length_replicate, List.length_singleton]
    omega
  refine ⟨hf, hdone', _, rfl, hsta, hmap', ?_⟩
  rw [hmap', doneCount_statusZip F _ hlen',
    filter_isDone_append_replicate _ _ hdone', hf]

/-! ## Master characterisation of the processing loop -/

/-- From a phase-A state, (1) every state reached while the loop's
dispatches are applied satisfies the run invariant, (2) terminal item
statuses are preserved between consecutive states, (3) a run in which
`cancelComplete` is dispatched ends with the run record discarded and never
dispatches `processingCompleted`, and (4) a run without `cancelComplete`
ends with status `success`, progress `100` and each remaining item's final
status determined by its outcome. -/
theorem processLoop_spec (outcome : Nat → Outcome) (cancelFrom : Option Nat)
    (F : List FileItem) (hnd : (F.map FileItem.id).Nodup) (hF : 0 < F.length) :
    ∀ (rest : List FileItem) (done : List FileStatus) (c : Nat) (s : AppState),
      F.drop done.length = rest →
      done.length ≤ F.length →
      phaseA F done s →
      (∀ x ∈ loopStates s (processLoop outcome cancelFrom rest done.length c), runInv F x) ∧
      List.Chain' terminalPreserved
        (loopStates s (processLoop outcome cancelFrom rest done.length c)) ∧
      (AppAction.cancelComplete ∈ processLoop outcome cancelFrom rest done.length c →
        (List.foldl appReducer s
          (processLoop outcome cancelFrom rest done.length c)).processingRequest = none ∧
        AppAction.processingCompleted ∉ processLoop outcome cancelFrom rest done.length c) ∧
      (AppAction.cancelComplete ∉ processLoop outcome cancelFrom rest done.length c →
        ∃ r, (List.foldl appReducer s
            (processLoop outcome cancelFrom rest done.length c)).processingRequest = some r ∧
          r.status = .success ∧ r.progress = 100 ∧
          r.processedFiles = statusZip F
            (done ++ (List.range' done.length (F.length - done.length)).map
              (fun j => outcomeStatus (outcome j)))) := by
  intro rest
  induction rest with
  | nil =>
    intro done c s hdrop hle hA
    have heq : done.length = F.length :=
      Nat.le_antisymm hle (List.drop_eq_nil_iff.mp hdrop)
    simp only [processLoop, postLoopTrace]
    by_cases hobs : cancelObserved cancelFrom c = true
    · rw [if_pos hobs]
      refine ⟨?_, ?_, ?_, ?_⟩
      · exact forall_mem_scanl_cons (phaseA_runInv F done s hle hA)
          (forall_mem_scanl_nil (runInv_cancelComplete F s (phaseA_runInv F done s hle hA)))
      · exact chain'_scanl_cons (terminalPreserved_none _ _ rfl) chain'_scanl_nil
      · intro _
        exact ⟨rfl, by simp⟩
      · intro hmem
        exact absurd (by simp) hmem
    · rw [if_neg hobs]
      have hA0 := hA
      obtain ⟨hf, hdone, r, hr, hst, hmap, hprog⟩ := hA0
      have hlen : (done ++ List.replicate (F.length - done.length) FileStatus.pending).length
          = F.length := by
        simp only [List.length_append, List.length_replicate]
        omega
      have hdc : doneCount r.processedFiles = F.length := by
        rw [hmap, doneCount_statusZip F _ hlen, filter_isDone_append_replicate done _ hdone, heq]
      have hrunN : runInv F (appReducer s .processingCompleted) := by
        rw [appReducer_processingCompleted s r hr]
        refine ⟨hf, ?_⟩
        intro r' hr'
        simp only [Option.some_inj] at hr'
        subst hr'
        constructor
        · rw [hmap]
          exact mapKeys_statusZip F _ hlen
        · rw [hdc, jsProgress_self F.length hF]
      refine ⟨?_, ?_, ?_, ?_⟩
      · exact forall_mem_scanl_cons (phaseA_runInv F done s hle hA)
          (forall_mem_scanl_nil hrunN)
      · exact chain'_scanl_cons (terminalPreserved_processingCompleted s) chain'_scanl_nil
      · intro hmem
        simp at hmem
      · intro _
        refine ⟨{ r with status := .success, progress := 100 }, ?_, rfl, rfl, ?_⟩
        · simp only [List.foldl_cons, List.foldl_nil]
          rw [appReducer_processingCompleted s r hr]
        · show r.processedFiles = _
          have h0 : F.length - done.length = 0 := by omega
          rw [hmap, h0]
          simp [List.range'_zero, List.replicate_zero]
  | cons f rest ih =>
    intro done c s hdrop hle hA
    have hget : F[done.length]? = some f := getElem?_of_drop F done.length f rest hdrop
    have hlt : done.length < F.length := lt_length_of_drop F done.length f rest hdrop
    have hdrop1 : F.drop (done.length + 1) = rest := drop_succ_of_drop F done.length f rest hdrop
    simp only [processLoop]
    by_cases hobs0 : cancelObserved cancelFrom c = true
    · rw [if_pos hobs0]
      have hobs1 : cancelObserved cancelFrom (c + 1) = true :=
        cancelObserved_mono cancelFrom hobs0 (by omega)
      simp only [postLoopTrace]
      rw [if_pos hobs1]
      obtain ⟨hall, hchain, hnone⟩ := cancelPair_spec F s (phaseA_runInv F done s hle hA)
      refine ⟨hall, hchain, ?_, ?_⟩
      · intro _
        exact ⟨hnone, by simp⟩
      · intro hmem
        exact absurd (by simp) hmem
    · rw [if_neg hobs0]
      -- the two dispatches that start the iteration
      have hA1 : phaseA F done (appReducer s (.processingProgressChanged done.length)) :=
        step_progress_phase F done s hA
      have hR01 : terminalPreserved s (appReducer s (.processingProgressChanged done.length)) :=
        terminalPreserved_progressChanged s done.length
      obtain ⟨hf1, hdone1, r1, hr1, hst1, hmap1, hprog1⟩ := hA1
      have hA1' : phaseA F done (appReducer s (.processingProgressChanged done.length)) :=
        ⟨hf1, hdone1, r1, hr1, hst1, hmap1, hprog1⟩
      have hB2 : phaseB F done
          (appReducer (appReducer s (.processingProgressChanged done.length))
            (.fileStatusChanged f.id .processing)) :=
        step_processing_phase F done _ f rest hnd hdrop hA1'
      have hR12 : terminalPreserved (appReducer s (.processingProgressChanged done.length))
          (appReducer (appReducer s (.processingProgressChanged done.length))
            (.fileStatusChanged f.id .processing)) := by
        apply terminalPreserved_fileStatusChanged _ r1 f.id .processing hr1
        intro st' hst'
        rw [phaseA_get_current F done _ f r1 hnd hA1' hget hlt hr1, Option.some_inj] at hst'
        rw [← hst']
        rfl
      obtain ⟨hf2, hdone2, r2, hr2, hst2, hmap2, hprog2⟩ := hB2
      have hB2' : phaseB F done
          (appReducer (appReducer s (.processingProgressChanged done.length))
            (.fileStatusChanged f.id .processing)) :=
        ⟨hf2, hdone2, r2, hr2, hst2, hmap2, hprog2⟩
      -- an exit through an observed cancellation after the item entered processing
      have hcancelExit : ∀ d e : Nat, cancelObserved cancelFrom d = true → d ≤ e →
          (∀ x ∈ loopStates s
              (.processingProgressChanged done.length ::
                .fileStatusChanged f.id .processing ::
                .cancelComplete :: postLoopTrace cancelFrom e), runInv F x) ∧
          List.Chain' terminalPreserved
            (loopStates s
              (.processingProgressChanged done.length ::
                .fileStatusChanged f.id .processing ::
                .cancelComplete :: postLoopTrace cancelFrom e)) ∧
          (AppAction.cancelComplete ∈
              (.processingProgressChanged done.length ::
                .fileStatusChanged f.id .processing ::
                .cancelComplete :: postLoopTrace cancelFrom e : List AppAction) →
            (List.foldl appReducer s
              (.processingProgressChanged done.length ::
                .fileStatusChanged f.id .processing ::
                .cancelComplete :: postLoopTrace cancelFrom e)).processingRequest = none ∧
            AppAction.processingCompleted ∉
              (.processingProgressChanged done.length ::
                .fileStatusChanged f.id .processing ::
                .cancelComplete :: postLoopTrace cancelFrom e : List AppAction)) ∧
          (AppAction.cancelComplete ∉
              (.processingProgressChanged done.length ::
                .fileStatusChanged f.id .processing ::
                .cancelComplete :: postLoopTrace cancelFrom e : List AppAction) →
            ∃ r, (List.foldl appReducer s
                (.processingProgressChanged done.length ::
                  .fileStatusChanged f.id .processing ::
                  .cancelComplete :: postLoopTrace cancelFrom e)).processingRequest
                = some r ∧
              r.status = .success ∧ r.progress = 100 ∧
              r.processedFiles = statusZip F
                (done ++ (List.range' done.length (F.length - done.length)).map
                  (fun j => outcomeStatus (outcome j)))) := by
        intro d e hd hde
        have hd1 : cancelObserved cancelFrom e = true :=
          cancelObserved_mono cancelFrom hd hde
        simp only [postLoopTrace]
        rw [if_pos hd1]
        obtain ⟨hall, hchain, hnone⟩ :=
          cancelPair_spec F _ (phaseB_runInv F done _ hlt hB2')
        refine ⟨?_, ?_, ?_, ?_⟩
        · exact forall_mem_scanl_cons (phaseA_runInv F done s (Nat.le_of_lt hlt) hA)
            (forall_mem_scanl_cons (phaseA_runInv F done _ (Nat.le_of_lt hlt) hA1') hall)
        · exact chain'_scanl_cons hR01 (chain'_scanl_cons hR12 hchain)
        · intro _
          refine ⟨?_, by simp⟩
          simp only [List.foldl_cons]
          exact hnone
        · intro hmem
          exact absurd (by simp) hmem
      -- a continuation after the item finished with a terminal status
      have hcont : ∀ (st : FileStatus) (c' : Nat), isDone st = true →
          outcomeStatus (outcome done.length) = st →
          (∀ x ∈ loopStates s
              (.processingProgressChanged done.length ::
                .fileStatusChanged f.id .processing ::
                .fileStatusChanged f.id st ::
                processLoop outcome cancelFrom rest (done.length + 1) c'), runInv F x) ∧
          List.Chain' terminalPreserved
            (loopStates s
              (.processingProgressChanged done.length ::
                .fileStatusChanged f.id .processing ::
                .fileStatusChanged f.id st ::
                processLoop outcome cancelFrom rest (done.length + 1) c')) ∧
          (AppAction.cancelComplete ∈
              (.processingProgressChanged done.length ::
                .fileStatusChanged f.id .processing ::
                .fileStatusChanged f.id st ::
                processLoop outcome cancelFrom rest (done.length + 1) c' : List AppAction) →
            (List.foldl appReducer s
              (.processingProgressChanged done.length ::
                .fileStatusChanged f.id .processing ::
                .fileStatusChanged f.id st ::
                processLoop outcome cancelFrom rest (done.length + 1) c')).processingRequest
                = none ∧
            AppAction.processingCompleted ∉
              (.processingProgressChanged done.length ::
                .fileStatusChanged f.id .processing ::
                .fileStatusChanged f.id st ::
                processLoop outcome cancelFrom rest (done.length + 1) c' : List AppAction)) ∧
          (AppAction.cancelComplete ∉
              (.processingProgressChanged done.length ::
                .fileStatusChanged f.id .processing ::
                .fileStatusChanged f.id st ::
                processLoop outcome cancelFrom rest (done.length + 1) c' : List AppAction) →
            ∃ r, (List.foldl appReducer s
                (.processingProgressChanged done.length ::
                  .fileStatusChanged f.id .processing ::
                  .fileStatusChanged f.id st ::
                  processLoop outcome cancelFrom rest (done.length + 1) c')).processingRequest
                = some r ∧
              r.status = .success ∧ r.progress = 100 ∧
              r.processedFiles = statusZip F
                (done ++ (List.range' done.length (F.length - done.length)).map
                  (fun j => outcomeStatus (outcome j)))) := by
        intro st c' hstdone hgst
        have hA3 : phaseA F (done ++ [st])
            (appReducer (appReducer (appReducer s (.processingProgressChanged done.length))
              (.fileStatusChanged f.id .processing)) (.fileStatusChanged f.id st)) :=
          step_finish_phase F done _ f rest st hnd hdrop hB2' hstdone
        have hR23 : terminalPreserved
            (appReducer (appReducer s (.processingProgressChanged done.length))
              (.fileStatusChanged f.id .processing))
            (appReducer (appReducer (appReducer s (.processingProgressChanged done.length))
              (.fileStatusChanged f.id .processing)) (.fileStatusChanged f.id st)) := by
          apply terminalPreserved_fileStatusChanged _ r2 f.id st hr2
          intro st' hst'
          rw [phaseB_get_current F done _ f r2 hnd hB2' hget hlt hr2, Option.some_inj] at hst'
          rw [← hst']
          rfl
        have hlen1 : (done ++ [st]).length = done.length + 1 := by
          simp
        have hIH := ih (done ++ [st]) c'
          (appReducer (appReducer (appReducer s (.processingProgressChanged done.length))
            (.fileStatusChanged f.id .processing)) (.fileStatusChanged f.id st))
          (by rw [hlen1]; exact hdrop1) (by rw [hlen1]; omega) hA3
        rw [hlen1] at hIH
        have hrange : (List.range' done.length (F.length - done.length)).map
            (fun j => outcomeStatus (outcome j))
            = st :: (List.range' (done.length + 1) (F.length - (done.length + 1))).map
              (fun j => outcomeStatus (outcome j)) := by
          have h1 : F.length - done.length = (F.length - (done.length + 1)) + 1 := by omega
          rw [h1, List.range'_succ, List.map_cons, hgst]
        refine ⟨?_, ?_, ?_, ?_⟩
        · exact forall_mem_scanl_cons (phaseA_runInv F done s (Nat.le_of_lt hlt) hA)
            (forall_mem_scanl_cons (phaseA_runInv F done _ (Nat.le_of_lt hlt) hA1')
              (forall_mem_scanl_cons (phaseB_runInv F done _ hlt hB2') hIH.1))
        · exact chain'_scanl_cons hR01 (chain'_scanl_cons hR12
            (chain'_scanl_cons hR23 hIH.2.1))
        · intro hmem
          have hmem' : AppAction.cancelComplete ∈
              processLoop outcome cancelFrom rest (done.length + 1) c' := by
            simpa using hmem
          obtain ⟨hnone, hnotpc⟩ := hIH.2.2.1 hmem'
          refine ⟨?_, ?_⟩
          · simpa only [List.foldl_cons] using hnone
          · simp only [List.mem_cons, not_or]
            exact ⟨by simp, by simp, by simp, hnotpc⟩
        · intro hmem
          have hmem' : AppAction.cancelComplete ∉
              processLoop outcome cancelFrom rest (done.length + 1) c' := by
            intro hc
            exact hmem (by simp [hc])
          obtain ⟨r, hrec, hsucc, hprog, hmapfin⟩ := hIH.2.2.2 hmem'
          refine ⟨r, ?_, hsucc, hprog, ?_⟩
          · simpa only [List.foldl_cons] using hrec
          · rw [hmapfin, hrange]
            rw [List.append_assoc, List.singleton_append]
      -- dispatch on the outcome of the item's three external steps
      cases houtcome : outcome done.length with
      | failMask =>
        dsimp only
        exact hcont .error (c + 1) rfl (by rw [houtcome]; rfl)
      | failApply =>
        dsimp only
        by_cases hobs1 : cancelObserved cancelFrom (c + 1) = true
        · rw [if_pos hobs1]
          exact hcancelExit (c + 1) (c + 2) hobs1 (by omega)
        · rw [if_neg hobs1]
          exact hcont .error (c + 2) rfl (by rw [houtcome]; rfl)
      | failSave =>
        dsimp only
        by_cases hobs1 : cancelObserved cancelFrom (c + 1) = true
        · rw [if_pos hobs1]
          exact hcancelExit (c + 1) (c + 2) hobs1 (by omega)
        · rw [if_neg hobs1]
          by_cases hobs2 : cancelObserved cancelFrom (c + 2) = true
          · rw [if_pos hobs2]
            exact hcancelExit (c + 2) (c + 3) hobs2 (by omega)
          · rw [if_neg hobs2]
            exact hcont .error (c + 3) rfl (by rw [houtcome]; rfl)
      | ok =>
        dsimp only
        by_cases hobs1 : cancelObserved cancelFrom (c + 1) = true
        · rw [if_pos hobs1]
          exact hcancelExit (c + 1) (c + 2) hobs1 (by omega)
        · rw [if_neg hobs1]
          by_cases hobs2 : cancelObserved cancelFrom (c + 2) = true
          · rw [if_pos hobs2]
            exact hcancelExit (c + 2) (c + 3) hobs2 (by omega)
          · rw [if_neg hobs2]
            by_cases hobs3 : cancelObserved cancelFrom (c + 3) = true
            · rw [if_pos hobs3]
              exact hcancelExit (c + 3) (c + 4) hobs3 (by omega)
            · rw [if_neg hobs3]
              exact hcont .completed (c + 4) rfl (by rw [houtcome]; rfl)

/-! ## Entering the run -/

theorem handleStart_phaseA (s0 : AppState) (F : List FileItem)
    (hnd : (F.map FileItem.id).Nodup) (hfiles : s0.files = F) :
    phaseA F [] (appReducer s0 .removeBackgroundButtonClicked) := by
  refine ⟨by simp [appReducer, hfiles], by simp, _, rfl, rfl, ?_, ?_⟩
  · show s0.files.foldl (fun m f => updateMap m f.id .pending) [] = _
    rw [hfiles, buildInitial_eq F hnd]
    simp
  · show (0 : Nat) = jsProgress ([] : List FileStatus).length F.length
    rw [List.length_nil, jsProgress_zero]

theorem terminalPreserved_start (s : AppState) (h : s.processingRequest = none)
    (s' : AppState) : terminalPreserved s s' := by
  intro fid st _ hst
  rw [itemStatus, h] at hst
  simp at hst

theorem runInv_of_none (F : List FileItem) (s : AppState)
    (hfiles : s.files = F) (h : s.processingRequest = none) : runInv F s := by
  refine ⟨hfiles, ?_⟩
  intro r hr
  rw [h] at hr
  cases hr

/-! ## The trace after an observed cancellation -/

/-- Every action strictly after a `cancelComplete` in the trace is itself a
`cancelComplete`. -/
def cancelTailOnly (tr : List AppAction) : Prop :=
  ∀ l1 l2, tr = l1 ++ .cancelComplete :: l2 → ∀ a ∈ l2, a = AppAction.cancelComplete

theorem cancelTailOnly_cons (a : AppAction) (tr : List AppAction)
    (ha : a ≠ .cancelComplete) (h : cancelTailOnly tr) : cancelTailOnly (a :: tr) := by
  intro l1 l2 heq
  cases l1 with
  | nil =>
    simp only [List.nil_append, List.cons.injEq] at heq
    exact absurd heq.1 ha
  | cons b l1 =>
    simp only [List.cons_append, List.cons.injEq] at heq
    exact h l1 l2 heq.2

theorem cancelTailOnly_pair :
    cancelTailOnly [AppAction.cancelComplete, AppAction.cancelComplete] := by
  intro l1 l2 heq a ha
  cases l1 with
  | nil =>
    simp only [List.nil_append, List.cons.injEq] at heq
    rw [← heq.2] at ha
    simpa using ha
  | cons b l1 =>
    cases l1 with
    | nil =>
      simp only [List.cons_append, List.nil_append, List.cons.injEq] at heq
      rw [← heq.2.2] at ha
      simp at ha
    | cons d l1 =>
      simp only [List.cons_append, List.cons.injEq] at heq
      have := heq.2.2
      exact absurd this.symm (by simp)

theorem cancelTailOnly_single_cc : cancelTailOnly [AppAction.cancelComplete] := by
  intro l1 l2 heq a ha
  cases l1 with
  | nil =>
    simp only [List.nil_append, List.cons.injEq] at heq
    rw [← heq.2] at ha
    simp at ha
  | cons b l1 =>
    simp only [List.cons_append, List.cons.injEq] at heq
    exact absurd heq.2.symm (by simp)

theorem cancelTailOnly_single_pc : cancelTailOnly [AppAction.processingCompleted] := by
  intro l1 l2 heq a ha
  cases l1 with
  | nil =>
    simp only [List.nil_append, List.cons.injEq] at heq
    exact absurd heq.1 (by simp)
  | cons b l1 =>
    simp only [List.cons_append, List.cons.injEq] at heq
    exact absurd heq.2.symm (by simp)

theorem cancelTailOnly_postLoop (cancelFrom : Option Nat) (c : Nat) :
    cancelTailOnly (postLoopTrace cancelFrom c) := by
  unfold postLoopTrace
  by_cases h : cancelObserved cancelFrom c = true
  · rw [if_pos h]
    exact cancelTailOnly_single_cc
  · rw [if_neg h]
    exact cancelTailOnly_single_pc

theorem cancelTailOnly_processLoop (outcome : Nat → Outcome) (cancelFrom : Option Nat) :
    ∀ (rest : List FileItem) (i c : Nat),
      cancelTailOnly (processLoop outcome cancelFrom rest i c) := by
  intro rest
  induction rest with
  | nil =>
    intro i c
    exact cancelTailOnly_postLoop cancelFrom c
  | cons f rest ih =>
    intro i c
    simp only [processLoop]
    by_cases hobs0 : cancelObserved cancelFrom c = true
    · rw [if_pos hobs0]
      have hobs1 : cancelObserved cancelFrom (c + 1) = true :=
        cancelObserved_mono cancelFrom hobs0 (by omega)
      simp only [postLoopTrace]
      rw [if_pos hobs1]
      exact cancelTailOnly_pair
    · rw [if_neg hobs0]
      cases houtcome : outcome i with
      | failMask =>
        dsimp only
        exact cancelTailOnly_cons _ _ (by simp) (cancelTailOnly_cons _ _ (by simp)
          (cancelTailOnly_cons _ _ (by simp) (ih (i + 1) (c + 1))))
      | failApply =>
        dsimp only
        by_cases hobs1 : cancelObserved cancelFrom (c + 1) = true
        · rw [if_pos hobs1]
          have hobs2 : cancelObserved cancelFrom (c + 2) = true :=
            cancelObserved_mono cancelFrom hobs1 (by omega)
          simp only [postLoopTrace]
          rw [if_pos hobs2]
          exact cancelTailOnly_cons _ _ (by simp) (cancelTailOnly_cons _ _ (by simp)
            cancelTailOnly_pair)
        · rw [if_neg hobs1]
          exact cancelTailOnly_cons _ _ (by simp) (cancelTailOnly_cons _ _ (by simp)
            (cancelTailOnly_cons _ _ (by simp) (ih (i + 1) (c + 2))))
      | failSave =>
        dsimp only
        by_cases hobs1 : cancelObserved cancelFrom (c + 1) = true
        · rw [if_pos hobs1]
          have hobs2 : cancelObserved cancelFrom (c + 2) = true :=
            cancelObserved_mono cancelFrom hobs1 (by omega)
          simp only [postLoopTrace]
          rw [if_pos hobs2]
          exact cancelTailOnly_cons _ _ (by simp) (cancelTailOnly_cons _ _ (by simp)
            cancelTailOnly_pair)
        · rw [if_neg hobs1]
          by_cases hobs2 : cancelObserved cancelFrom (c + 2) = true
          · rw [if_pos hobs2]
            have hobs3 : cancelObserved cancelFrom (c + 3) = true :=
              cancelObserved_mono cancelFrom hobs2 (by omega)
            simp only [postLoopTrace]
            rw [if_pos hobs3]
            exact cancelTailOnly_cons _ _ (by simp) (cancelTailOnly_cons _ _ (by simp)
              cancelTailOnly_pair)
          · rw [if_neg hobs2]
            exact cancelTailOnly_cons _ _ (by simp) (cancelTailOnly_cons _ _ (by simp)
              (cancelTailOnly_cons _ _ (by simp) (ih (i + 1) (c + 3))))
      | ok =>
        dsimp only
        by_cases hobs1 : cancelObserved cancelFrom (c + 1) = true
        · rw [if_pos hobs1]
          have hobs2 : cancelObserved cancelFrom (c + 2) = true :=
            cancelObserved_mono cancelFrom hobs1 (by omega)
          simp only [postLoopTrace]
          rw [if_pos hobs2]
          exact cancelTailOnly_cons _ _ (by simp) (cancelTailOnly_cons _ _ (by simp)
            cancelTailOnly_pair)
        · rw [if_neg hobs1]
          by_cases hobs2 : cancelObserved cancelFrom (c + 2) = true
          · rw [if_pos hobs2]
            have hobs3 : cancelObserved cancelFrom (c + 3) = true :=
              cancelObserved_mono cancelFrom hobs2 (by omega)
            simp only [postLoopTrace]
            rw [if_pos hobs3]
            exact cancelTailOnly_cons _ _ (by simp) (cancelTailOnly_cons _ _ (by simp)
              cancelTailOnly_pair)
          · rw [if_neg hobs2]
            by_cases hobs3 : cancelObserved cancelFrom (c + 3) = true
            · rw [if_pos hobs3]
              have hobs4 : cancelObserved cancelFrom (c + 4) = true :=
                cancelObserved_mono cancelFrom hobs3 (by omega)
              simp only [postLoopTrace]
              rw [if_pos hobs4]
              exact cancelTailOnly_cons _ _ (by simp) (cancelTailOnly_cons _ _ (by simp)
                cancelTailOnly_pair)
            · rw [if_neg hobs3]
              exact cancelTailOnly_cons _ _ (by simp) (cancelTailOnly_cons _ _ (by simp)
                (cancelTailOnly_cons _ _ (by simp) (ih (i + 1) (c + 4))))

theorem cancelTailOnly_handleStart (F : List FileItem) (outcome : Nat → Outcome)
    (cancelFrom : Option Nat) :
    cancelTailOnly (handleStartTrace F outcome cancelFrom) :=
  cancelTailOnly_cons _ _ (by simp)
    (cancelTailOnly_processLoop outcome cancelFrom F 0 0)

/-- With no cancellation requested, the loop never dispatches
`cancelComplete`. -/
theorem processLoop_no_cancel (outcome : Nat → Outcome) :
    ∀ (rest : List FileItem) (i c : Nat),
      AppAction.cancelComplete ∉ processLoop outcome none rest i c := by
  intro rest
  induction rest with
  | nil =>
    intro i c
    simp [processLoop, postLoopTrace, cancelObserved]
  | cons f rest ih =>
    intro i c
    cases houtcome : outcome i <;>
      simp [processLoop, postLoopTrace, cancelObserved, houtcome, ih]

/-! ## Counting statuses in the final map -/

/-- The number of entries of the map carrying status `v`. -/
def countStatus (m : StatusMap) (v : FileStatus) : Nat :=
  (m.filter (fun p => p.2 == v)).length

theorem countStatus_statusZip (F : List FileItem) (sts : List FileStatus)
    (hlen : sts.length = F.length) (v : FileStatus) :
    countStatus (statusZip F sts) v = (sts.filter (fun st => st == v)).length := by
  induction F generalizing sts with
  | nil =>
    cases sts with
    | nil => simp [statusZip, countStatus]
    | cons st sts => simp at hlen
  | cons g F ih =>
    cases sts with
    | nil => simp at hlen
    | cons st sts =>
      simp only [List.length_cons, Nat.succ_inj] at hlen
      by_cases h : (st == v) = true <;>
        simp [statusZip, countStatus, List.zipWith_cons_cons, List.filter_cons, h,
          ← ih sts hlen, countStatus]

theorem filter_length_one_of_unique {α : Type} (l : List α) (p : α → Bool) (k : α)
    (hnd : l.Nodup) (hk : k ∈ l) (hp : ∀ x ∈ l, p x = true ↔ x = k) :
    (l.filter p).length = 1 := by
  induction l with
  | nil => cases hk
  | cons a l ih =>
    rw [List.nodup_cons] at hnd
    rcases List.mem_cons.mp hk with h | h
    · subst h
      have hpa : p k = true := (hp k (List.mem_cons_self k l)).mpr rfl
      have hnil : l.filter p = [] := by
        rw [List.filter_eq_nil_iff]
        intro x hx hpx
        exact hnd.1 (((hp x (List.mem_cons_of_mem k hx)).mp hpx) ▸ hx)
      simp [List.filter_cons, hpa, hnil]
    · have hpa : p a = false := by
        rcases Bool.eq_false_or_eq_true (p a) with hb | hb
        · exact absurd (((hp a (List.mem_cons_self a l)).mp hb) ▸ h) hnd.1
        · exact hb
      rw [List.filter_cons, if_neg (by simp [hpa])]
      exact ih hnd.2 h (fun x hx => hp x (List.mem_cons_of_mem a hx))

theorem filter_length_of_except {α : Type} (l : List α) (p : α → Bool) (k : α)
    (hnd : l.Nodup) (hk : k ∈ l) (hp : ∀ x ∈ l, p x = true ↔ x ≠ k) :
    (l.filter p).length = l.length - 1 := by
  induction l with
  | nil => cases hk
  | cons a l ih =>
    rw [List.nodup_cons] at hnd
    rcases List.mem_cons.mp hk with h | h
    · subst h
      have hpa : p k = false := by
        rcases Bool.eq_false_or_eq_true (p k) with hb | hb
        · exact absurd rfl ((hp k (List.mem_cons_self k l)).mp hb)
        · exact hb
      have hall : l.filter p = l := by
        rw [List.filter_eq_self]
        intro x hx
        exact (hp x (List.mem_cons_of_mem k hx)).mpr (fun he => hnd.1 (he ▸ hx))
      rw [List.filter_cons, if_neg (by simp [hpa]), hall]
      simp
    · have hne : l ≠ [] := List.ne_nil_of_mem h
      have hlpos : 0 < l.length := List.length_pos.mpr hne
      have hpa : p a = true :=
        (hp a (List.mem_cons_self a l)).mpr (fun he => hnd.1 (he ▸ h))
      rw [List.filter_cons, if_pos (by simp [hpa])]
      simp only [List.length_cons,
        ih hnd.2 h (fun x hx => hp x (List.mem_cons_of_mem a hx))]
      omega

/-! ## Compositor lemmas -/

theorem u8Clamped_le (q : ℚ) : u8Clamped q ≤ 255 := by
  unfold u8Clamped
  by_cases h0 : q ≤ 0
  · simp [h0]
  · rw [if_neg h0]
    by_cases h255 : 255 ≤ q
    · simp [h255]
    · rw [if_neg h255]
      push_neg at h255
      have hfloor : ⌊q⌋ < 255 := by
        have h1 : (⌊q⌋ : ℚ) < 255 := lt_of_le_of_lt (Int.floor_le q) h255
        exact_mod_cast h1
      by_cases hf1 : q - (⌊q⌋ : ℚ) < 1/2
      · rw [if_pos hf1]; omega
      · rw [if_neg hf1]
        by_cases hf2 : (1 : ℚ)/2 < q - (⌊q⌋ : ℚ)
        · rw [if_pos hf2]; omega
        · rw [if_neg hf2]
          by_cases hf3 : ⌊q⌋ % 2 = 0
          · rw [if_pos hf3]; omega
          · rw [if_neg hf3]; omega

theorem u8Clamped_natCast (m : Nat) (hm : m ≤ 255) : u8Clamped (m : ℚ) = m := by
  unfold u8Clamped
  rcases Nat.eq_zero_or_pos m with h0 | h0
  · subst h0
    norm_num
  · have hq0 : (0 : ℚ) < (m : ℚ) := by exact_mod_cast h0
    rw [if_neg (not_le.mpr hq0)]
    by_cases h255 : m = 255
    · subst h255
      norm_num
    · have hlt : (m : ℚ) < 255 := by exact_mod_cast (by omega : m < 255)
      rw [if_neg (not_le.mpr hlt), Int.floor_natCast]
      rw [if_pos (by push_cast; norm_num)]
      simp

theorem u8Clamped_divThree (s : Nat) (hs : s ≤ 765) :
    u8Clamped ((s : ℚ) / 3) = (s + 1) / 3 := by
  unfold u8Clamped
  rcases Nat.eq_zero_or_pos s with h0 | h0
  · subst h0
    norm_num
  · have hq0 : (0 : ℚ) < (s : ℚ) / 3 := by positivity
    rw [if_neg (not_le.mpr hq0)]
    by_cases h765 : s = 765
    · subst h765
      norm_num
    · have hlt : (s : ℚ) / 3 < 255 := by
        rw [div_lt_iff (by norm_num : (0 : ℚ) < 3)]
        exact_mod_cast (by omega : s < 765)
      rw [if_neg (not_le.mpr hlt)]
      have hfloor : ⌊(s : ℚ) / 3⌋ = ((s / 3 : Nat) : ℤ) := by
        rw [Int.floor_eq_iff]
        constructor
        · rw [le_div_iff (by norm_num : (0 : ℚ) < 3)]
          have h1 : (s / 3) * 3 ≤ s := by omega
          exact_mod_cast h1
        · rw [div_lt_iff (by norm_num : (0 : ℚ) < 3)]
          have h2 : s < (s / 3 + 1) * 3 := by omega
          push_cast
          exact_mod_cast h2
      rw [hfloor]
      have hfrac : (s : ℚ) / 3 - (((s / 3 : Nat) : ℤ) : ℚ) = ((s % 3 : Nat) : ℚ) / 3 := by
        rw [Int.cast_natCast]
        have h3 : (s : ℚ) = 3 * ((s / 3 : Nat) : ℚ) + ((s % 3 : Nat) : ℚ) := by
          exact_mod_cast (by omega : s = 3 * (s / 3) + s % 3)
        rw [h3]
        ring
      rw [hfrac]
      have hm3 : s % 3 = 0 ∨ s % 3 = 1 ∨ s % 3 = 2 := by omega
      rcases hm3 with hm | hm | hm <;> rw [hm]
      · rw [if_pos (by norm_num)]
        simp only [Int.toNat_natCast]
        omega
      · rw [if_pos (by norm_num)]
        simp only [Int.toNat_natCast]
        omega
      · rw [if_neg (by norm_num), if_pos (by norm_num)]
        have h4 : (((s / 3 : Nat) : ℤ) + 1).toNat = s / 3 + 1 := by omega
        rw [h4]
        omega

theorem u8Clamped_brightness (r g b : Nat) (h : r + g + b ≤ 765) :
    u8Clamped (brightness r g b) = (r + g + b + 1) / 3 := by
  unfold brightness
  exact u8Clamped_divThree (r + g + b) h

theorem sourceIn_alpha (dest src : Pixel) (hsrc : src.a = 255) (hd : dest.a ≤ 255) :
    (sourceIn dest src).a = dest.a := by
  unfold sourceIn
  simp only [hsrc]
  have h1 : ((255 * dest.a : Nat) : ℚ) / 255 = (dest.a : ℚ) := by
    push_cast
    rw [mul_comm, mul_div_assoc, div_self (by norm_num : (255 : ℚ) ≠ 0), mul_one]
  rw [h1]
  exact u8Clamped_natCast dest.a hd

/-- The byte store of `x / 255` for `x ≤ 255 * 255`: `(2x + 255) / 510` in
natural division.  `x / 255` is never exactly half-way (`2x = 255 * odd`
is impossible), so round half to even coincides with round half up. -/
theorem u8Clamped_div255 (x : Nat) (hx : x ≤ 65025) :
    u8Clamped ((x : ℚ) / 255) = (2 * x + 255) / 510 := by
  unfold u8Clamped
  rcases Nat.eq_zero_or_pos x with h0 | h0
  · subst h0
    norm_num
  · have hq0 : (0 : ℚ) < (x : ℚ) / 255 := by positivity
    rw [if_neg (not_le.mpr hq0)]
    by_cases h65 : 65025 ≤ x
    · have hx' : x = 65025 := by omega
      subst hx'
      rw [if_pos (by norm_num : (255 : ℚ) ≤ (65025 : ℕ) / 255)]
    · push_neg at h65
      have hlt : (x : ℚ) / 255 < 255 := by
        rw [div_lt_iff (by norm_num : (0 : ℚ) < 255)]
        exact_mod_cast (by omega : x < 65025)
      rw [if_neg (not_le.mpr hlt)]
      have hfloor : ⌊(x : ℚ) / 255⌋ = ((x / 255 : Nat) : ℤ) := by
        rw [Int.floor_eq_iff]
        constructor
        · rw [le_div_iff (by norm_num : (0 : ℚ) < 255)]
          have h1 : (x / 255) * 255 ≤ x := by omega
          exact_mod_cast h1
        · rw [div_lt_iff (by norm_num : (0 : ℚ) < 255)]
          have h2 : x < (x / 255 + 1) * 255 := by omega
          push_cast
          exact_mod_cast h2
      rw [hfloor]
      have hfrac : (x : ℚ) / 255 - (((x / 255 : Nat) : ℤ) : ℚ)
          = ((x % 255 : Nat) : ℚ) / 255 := by
        rw [Int.cast_natCast]
        have h3 : (x : ℚ) = 255 * ((x / 255 : Nat) : ℚ) + ((x % 255 : Nat) : ℚ) := by
          exact_mod_cast (by omega : x = 255 * (x / 255) + x % 255)
        rw [h3]
        ring
      rw [hfrac]
      by_cases hm : x % 255 ≤ 127
      · have hfr : ((x % 255 : Nat) : ℚ) / 255 < 1/2 := by
          rw [div_lt_iff (by norm_num : (0 : ℚ) < 255)]
          have hc : ((x % 255 : Nat) : ℚ) ≤ 127 := by exact_mod_cast hm
          linarith
        rw [if_pos hfr]
        simp only [Int.toNat_natCast]
        omega
      · push_neg at hm
        have hc : (128 : ℚ) ≤ ((x % 255 : Nat) : ℚ) := by exact_mod_cast hm
        have hfr1 : ¬ ((x % 255 : Nat) : ℚ) / 255 < 1/2 := by
          push_neg
          rw [le_div_iff (by norm_num : (0 : ℚ) < 255)]
          linarith
        have hfr2 : (1 : ℚ)/2 < ((x % 255 : Nat) : ℚ) / 255 := by
          rw [lt_div_iff (by norm_num : (0 : ℚ) < 255)]
          linarith
        rw [if_neg hfr1, if_pos hfr2]
        have h4 : (((x / 255 : Nat) : ℤ) + 1).toNat = x / 255 + 1 := by omega
        rw [h4]
        omega

/-- Closed form of the `source-in` alpha byte: the product of the source
and destination alphas rescaled by 255, rounded to the nearest byte. -/
theorem sourceIn_alpha_closed (dest src : Pixel) (hs : src.a ≤ 255) (hd : dest.a ≤ 255) :
    (sourceIn dest src).a = (2 * (src.a * dest.a) + 255) / 510 := by
  show u8Clamped (((src.a * dest.a : Nat) : ℚ) / 255) = _
  exact u8Clamped_div255 (src.a * dest.a)
    (le_trans (Nat.mul_le_mul hs hd) (by norm_num))

theorem zipWith_getElem? {α β γ : Type} (f : α → β → γ) :
    ∀ (as : List α) (bs : List β) (i : Nat) (a : α) (b : β),
      as[i]? = some a → bs[i]? = some b →
      (List.zipWith f as bs)[i]? = some (f a b) := by
  intro as
  induction as with
  | nil =>
    intro bs i a b ha
    simp at ha
  | cons x as ih =>
    intro bs i a b ha hb
    cases bs with
    | nil => simp at hb
    | cons y bs =>
      cases i with
      | zero =>
        simp only [List.getElem?_cons_zero, Option.some_inj] at ha hb
        subst ha
        subst hb
        simp [List.zipWith_cons_cons]
      | succ i =>
        simp only [List.getElem?_cons_succ] at ha hb
        simp only [List.zipWith_cons_cons, List.getElem?_cons_succ]
        exact ih bs i a b ha hb

theorem applyMask_getElem? (photo maskImg : List Pixel) (i : Nat) (p m : Pixel)
    (hp : photo[i]? = some p) (hm : maskImg[i]? = some m) :
    (applyMask photo maskImg)[i]? = some (sourceIn (lumaAlpha m) p) := by
  unfold applyMask
  have hm' : (maskImg.map lumaAlpha)[i]? = some (lumaAlpha m) := by
    rw [List.getElem?_map, hm]
    rfl
  exact zipWith_getElem? _ (maskImg.map lumaAlpha) photo i (lumaAlpha m) p hm' hp

/-! ## Naming-policy lemmas -/

theorem takeWhile_eq_self_of {α : Type} (p : α → Bool) (l : List α)
    (h : ∀ x ∈ l, p x = true) : l.takeWhile p = l := by
  induction l with
  | nil => rfl
  | cons a l ih =>
    rw [List.takeWhile_cons, if_pos (h a (List.mem_cons_self a l))]
    rw [ih (fun x hx => h x (List.mem_cons_of_mem a hx))]

theorem takeWhile_append_cons {α : Type} (p : α → Bool) (l1 : List α) (a : α) (l2 : List α)
    (h1 : ∀ x ∈ l1, p x = true) (ha : p a = false) :
    (l1 ++ a :: l2).takeWhile p = l1 := by
  induction l1 with
  | nil =>
    simp only [List.nil_append, List.takeWhile_cons]
    rw [if_neg (by simp [ha])]
  | cons x l1 ih =>
    simp only [List.cons_append, List.takeWhile_cons]
    rw [if_pos (h1 x (List.mem_cons_self x l1))]
    rw [ih (fun y hy => h1 y (List.mem_cons_of_mem x hy))]

theorem dropWhile_append_cons {α : Type} (p : α → Bool) (l1 : List α) (a : α) (l2 : List α)
    (h1 : ∀ x ∈ l1, p x = true) (ha : p a = false) :
    (l1 ++ a :: l2).dropWhile p = a :: l2 := by
  induction l1 with
  | nil =>
    simp only [List.nil_append, List.dropWhile_cons]
    rw [if_neg (by simp [ha])]
  | cons x l1 ih =>
    simp only [List.cons_append, List.dropWhile_cons]
    rw [if_pos (h1 x (List.mem_cons_self x l1))]
    exact ih (fun y hy => h1 y (List.mem_cons_of_mem x hy))

theorem basenameChars_no_slash (l : List Char) (h : '/' ∉ l) : basenameChars l = l := by
  unfold basenameChars
  rw [takeWhile_eq_self_of _ _ ?_, List.reverse_reverse]
  intro x hx
  rw [List.mem_reverse] at hx
  simp only [decide_eq_true_eq]
  intro he
  exact h (he ▸ hx)

theorem extnameChars_stem_ext (stem ext : List Char)
    (hstem : stem ≠ []) (hdot : '.' ∉ ext) (hslash : '/' ∉ stem ++ '.' :: ext) :
    extnameChars (stem ++ '.' :: ext) = some ext := by
  unfold extnameChars
  rw [basenameChars_no_slash _ hslash]
  have hrev : (stem ++ '.' :: ext).reverse = ext.reverse ++ '.' :: stem.reverse := by
    rw [List.reverse_append, List.reverse_cons]
    simp [List.append_assoc]
  have hext : ∀ x ∈ ext.reverse, (fun c => decide (c ≠ '.')) x = true := by
    intro x hx
    rw [List.mem_reverse] at hx
    simp only [decide_eq_true_eq]
    intro he
    exact hdot (he ▸ hx)
  rw [if_pos (by simp : '.' ∈ stem ++ '.' :: ext)]
  rw [hrev]
  rw [takeWhile_append_cons _ _ _ _ hext (by simp),
    dropWhile_append_cons _ _ _ _ hext (by simp)]
  simp only [List.tail_cons]
  rw [if_neg (by simpa [List.reverse_eq_nil_iff] using hstem)]
  rw [List.reverse_reverse]

theorem prefix_getElem? {α : Type} (l1 l2 : List α) (i : Nat) (h : l1 <+: l2)
    (hi : i < l1.length) : l2[i]? = l1[i]? := by
  obtain ⟨t, rfl⟩ := h
  rw [List.getElem?_append, if_pos hi]

theorem ext_not_prefix (stem ext : List Char) (hne : ext ≠ []) (hdot : '.' ∉ ext)
    (hinf : ¬ ext <:+: stem) : ¬ ext <+: (stem ++ '.' :: ext) := by
  intro hpre
  rcases Nat.lt_or_ge stem.length ext.length with hlen | hlen
  · have h1 : (stem ++ '.' :: ext)[stem.length]? = some '.' :=
      getElem?_append_length stem '.' ext
    have h2 : ext[stem.length]? = some '.' := by
      rw [← prefix_getElem? ext (stem ++ '.' :: ext) stem.length hpre hlen, h1]
    exact hdot (List.getElem?_mem h2)
  · apply hinf
    apply List.IsPrefix.isInfix
    obtain ⟨t, ht⟩ := hpre
    have h1 : (ext ++ t).take ext.length = ext := List.take_left ext t
    rw [ht, List.take_append_of_le_length hlen] at h1
    rw [← h1]
    exact List.take_prefix ext.length stem

theorem removeFirst_self (pat : List Char) (h : pat ≠ []) : removeFirst pat pat = [] := by
  cases pat with
  | nil => exact absurd rfl h
  | cons c rest =>
    unfold removeFirst
    rw [if_pos ( List.isPrefixOf_iff_prefix.mpr (List.prefix_refl _))]
    exact List.drop_length (c :: rest)

theorem removeFirst_stem_ext (stem ext : List Char)
    (hne : ext ≠ []) (hdot : '.' ∉ ext) (hinf : ¬ ext <:+: stem) :
    removeFirst (stem ++ '.' :: ext) ext = stem ++ ['.'] := by
  induction stem with
  | nil =>
    simp only [List.nil_append]
    unfold removeFirst
    rw [if_neg ?hpre0]
    case hpre0 =>
      intro hb
      apply ext_not_prefix [] ext hne hdot
      · intro hin
        exact hne (List.eq_nil_of_infix_nil hin)
      · simpa using List.isPrefixOf_iff_prefix.mp hb
    rw [removeFirst_self ext hne]
  | cons ch stem ih =>
    have hinf' : ¬ ext <:+: stem := fun hin => hinf (List.infix_cons hin)
    simp only [List.cons_append]
    unfold removeFirst
    rw [if_neg ?hpre1]
    case hpre1 =>
      intro hb
      exact ext_not_prefix (ch :: stem) ext hne hdot hinf
        (by simpa using List.isPrefixOf_iff_prefix.mp hb)
    rw [ih hinf']

/-- The general corrected behaviour of `createFileName`: for a plain
file name `stem.ext` whose extension does not also occur inside the stem,
the Tauri `extname` lacks the dot, so only the extension characters are
removed and the dot survives in the output. -/
theorem createFileName_stem_ext (stem ext : List Char)
    (hstem : stem ≠ []) (hne : ext ≠ []) (hdot : '.' ∉ ext)
    (hslash : '/' ∉ stem ++ '.' :: ext) (hinf : ¬ ext <:+: stem) :
    createFileName (String.mk (stem ++ '.' :: ext))
      = some (String.mk (stem ++ '.' :: "-clipped.png".data)) := by
  unfold createFileName
  simp only [show (String.mk (stem ++ '.' :: ext)).data = stem ++ '.' :: ext from rfl,
    extnameChars_stem_ext stem ext hstem hdot hslash,
    basenameChars_no_slash _ hslash,
    removeFirst_stem_ext stem ext hne hdot hinf]
  rw [List.append_assoc, List.singleton_append]

/-! ## Concrete demonstration inputs -/

/-- A concrete file item for closed instances. -/
def demoFile (n : String) : FileItem :=
  { id := n, name := n, path := n, size := 1, preview := n }

/-- A concrete pre-run state for closed instances. -/
def demoState (fs : List FileItem) : AppState :=
  { isDragging := false, files := fs, outputFolder := some "out", processingRequest := none }

/-- A legacy (useState-based App.tsx) state with one completed item. -/
def legacyDemo : LegacyState :=
  { files := [demoFile "a"], isProcessing := true, cancelled := false,
    processedFiles := [("a", FileStatus.completed)], currentProcessingIndex := 1 }

def demoPhoto : List Pixel := [⟨10, 20, 30, 255⟩, ⟨1, 2, 3, 255⟩, ⟨9, 9, 9, 255⟩]

def demoMask : List Pixel := [⟨255, 255, 255, 0⟩, ⟨0, 0, 0, 0⟩, ⟨128, 128, 128, 0⟩]

/-- Forty files with distinct ids, for the half-percent-tie instance. -/
def wideFiles : List FileItem :=
  (List.range 40).map (fun j => demoFile (String.mk (List.replicate j 'a')))

/-- Per-item statuses of a 40-file run at the top of iteration 22: the
first 22 items finished, the 23rd in flight, the rest pending. -/
def wideStatuses : List FileStatus :=
  List.replicate 22 FileStatus.completed ++
    FileStatus.processing :: List.replicate 17 FileStatus.pending

/-- The mid-run state of a 40-file run just before the 23rd item's terminal
status is dispatched (its `progress` 55 is `jsProgress 22 40`, the value an
all-successful run carries at this point). -/
def wideState : AppState :=
  { isDragging := false
    files := wideFiles
    outputFolder := some "out"
    processingRequest :=
      some ({ status := .processing
              progress := 55
              processedFiles := statusZip wideFiles wideStatuses
              currentProcessingIndex := 22
              isCancelling := false }) }

/-! ## Claims -/

/-- C1 counterexample: the claimed formula rounds the exact ratio —
`round(100 * 23/40) = round(57.5) = 58` — but the program evaluates
`Math.round((23/40) * 100)` in binary64, where both intermediate results
fall just below the exact value, and computes 57.  The dispatch below is
the `FILE_STATUS_CHANGED` recomputation from the authoritative map at the
mid-run state of a 40-file run in which the 23rd item finishes. -/
theorem C1_counterexample :
    specRoundPct 23 40 = 58 ∧
    jsProgress 23 40 = 57 ∧
    ((appReducer wideState
        (.fileStatusChanged (demoFile (String.mk (List.replicate 22 'a'))).id
          .completed)).processingRequest.map ProcessingRequest.progress) = some 57 ∧
    ((appReducer wideState
        (.fileStatusChanged (demoFile (String.mk (List.replicate 22 'a'))).id
          .completed)).processingRequest.map
      (fun r => doneCount r.processedFiles)) = some 23 ∧
    (57 : Nat) ≠ specRoundPct 23 40 := by
  have hrec : wideState.processingRequest =
      some ({ status := .processing
              progress := 55
              processedFiles := statusZip wideFiles wideStatuses
              currentProcessingIndex := 22
              isCancelling := false }) := rfl
  have hdc : doneCount (updateMap (statusZip wideFiles wideStatuses)
      (demoFile (String.mk (List.replicate 22 'a'))).id FileStatus.completed) = 23 := by
    decide
  have hlen : wideState.files.length = 40 := rfl
  refine ⟨by decide, jsProgress_23_40, ?_, ?_, by decide⟩
  · rw [appReducer_fileStatusChanged wideState _ _ _ hrec]
    show some (jsProgress (doneCount (updateMap (statusZip wideFiles wideStatuses)
      (demoFile (String.mk (List.replicate 22 'a'))).id FileStatus.completed))
      wideState.files.length) = some 57
    rw [hdc, hlen, jsProgress_23_40]
  · rw [appReducer_fileStatusChanged wideState _ _ _ hrec]
    show some (doneCount (updateMap (statusZip wideFiles wideStatuses)
      (demoFile (String.mk (List.replicate 22 'a'))).id FileStatus.completed)) = some 23
    rw [hdc]

/-- C1 (amended): in every state reachable during a run driven by
`handleStart` (any per-item outcomes, any cooperative cancellation
schedule), the run's `progress` field equals the program's own progress
computation — `Math.round((done/total) * 100)` evaluated in IEEE-754
binary64 arithmetic — recomputed from the authoritative per-item status
map.  This is the self-correcting invariant the claim describes, but with
the program's double-precision rounding, which at half-percent ties can
differ by one from rounding the exact ratio (23 of 40 gives 57, not 58).
The reducer's `PROCESSING_PROGRESS_CHANGED` case computes the same formula
from the current processing index, but at each of its reachable dispatch
points exactly `index` items are terminal, so the value always coincides
with the map-derived recomputation. -/
theorem C1_progress_invariant (F : List FileItem) (outcome : Nat → Outcome)
    (cancelFrom : Option Nat) (s0 : AppState)
    (hnd : (F.map FileItem.id).Nodup) (hF : 0 < F.length)
    (hfiles : s0.files = F) (hreq : s0.processingRequest = none) :
    ∀ s ∈ loopStates s0 (handleStartTrace F outcome cancelFrom),
      ∀ r, s.processingRequest = some r →
        r.progress = jsProgress (doneCount r.processedFiles) s.files.length := by
  have hA := handleStart_phaseA s0 F hnd hfiles
  have hspec := processLoop_spec outcome cancelFrom F hnd hF F [] 0
    (appReducer s0 .removeBackgroundButtonClicked) (by simp) (by simp) hA
  have hall : ∀ x ∈ loopStates s0 (handleStartTrace F outcome cancelFrom), runInv F x :=
    forall_mem_scanl_cons (runInv_of_none F s0 hfiles hreq) hspec.1
  intro s hs r hr
  obtain ⟨hsf, hprop⟩ := hall s hs
  rw [hsf]
  exact (hprop r hr).2

/-- C1 witness: a concrete two-file successful run, the invariant checked
over the whole list of reached states. -/
theorem C1_progress_invariant_witness :
    ((loopStates (demoState [demoFile "a", demoFile "b"])
        (handleStartTrace [demoFile "a", demoFile "b"] (fun _ => Outcome.ok) none)).all
      (fun s =>
        match s.processingRequest with
        | none => true
        | some r => r.progress == jsProgress (doneCount r.processedFiles) s.files.length))
      = true := by
  have h := C1_progress_invariant [demoFile "a", demoFile "b"] (fun _ => Outcome.ok) none
    (demoState [demoFile "a", demoFile "b"]) (by decide) (by decide) rfl rfl
  rw [List.all_eq_true]
  intro s hs
  cases hreq : s.processingRequest with
  | none => simp
  | some r =>
    have h2 := h s hs r hreq
    simp [h2]

/-- C2 counterexample: in a cancelled run the run record is discarded; no
state of the run ever carries a terminal status distinct from `success`
(the `RequestStatus` type has no `cancelled` member, and along this
cancelled run the only status ever observed is `processing`). -/
theorem C2_counterexample :
    (List.foldl appReducer (demoState [demoFile "a"])
        (handleStartTrace [demoFile "a"] (fun _ => Outcome.ok) (some 0))).processingRequest
      = none ∧
    ∀ s ∈ loopStates (demoState [demoFile "a"])
        (handleStartTrace [demoFile "a"] (fun _ => Outcome.ok) (some 0)),
      s.processingRequest.map ProcessingRequest.status = none ∨
      s.processingRequest.map ProcessingRequest.status = some RequestStatus.processing := by
  decide

/-- C2 (amended): when cancellation is requested and observed at a
checkpoint, the run resolves to a clean terminal state — the run record is
discarded (`processingRequest = none`) and the `Completed` transition
(`PROCESSING_COMPLETED`, status `success`) is never dispatched; there is no
distinct `Cancelled` status value in the code. -/
theorem C2_cancel_clean_terminal (F : List FileItem) (outcome : Nat → Outcome)
    (cancelFrom : Option Nat) (s0 : AppState)
    (hnd : (F.map FileItem.id).Nodup) (hF : 0 < F.length)
    (hfiles : s0.files = F) (hreq : s0.processingRequest = none)
    (hobs : AppAction.cancelComplete ∈ handleStartTrace F outcome cancelFrom) :
    (List.foldl appReducer s0 (handleStartTrace F outcome cancelFrom)).processingRequest
      = none ∧
    AppAction.processingCompleted ∉ handleStartTrace F outcome cancelFrom := by
  have hA := handleStart_phaseA s0 F hnd hfiles
  have hspec := processLoop_spec outcome cancelFrom F hnd hF F [] 0
    (appReducer s0 .removeBackgroundButtonClicked) (by simp) (by simp) hA
  have hmem : AppAction.cancelComplete ∈ processLoop outcome cancelFrom F 0 0 := by
    simpa [handleStartTrace] using hobs
  obtain ⟨hnone, hnpc⟩ := hspec.2.2.1 hmem
  constructor
  · simpa only [handleStartTrace, List.foldl_cons] using hnone
  · simp only [handleStartTrace, List.mem_cons, not_or]
    exact ⟨by simp, hnpc⟩

/-- C2 witness: a concrete run cancelled before the first item. -/
theorem C2_cancel_clean_terminal_witness :
    (List.foldl appReducer (demoState [demoFile "a"])
        (handleStartTrace [demoFile "a"] (fun _ => Outcome.ok) (some 0))).processingRequest
      = none ∧
    AppAction.processingCompleted ∉
      handleStartTrace [demoFile "a"] (fun _ => Outcome.ok) (some 0) :=
  C2_cancel_clean_terminal [demoFile "a"] (fun _ => Outcome.ok) (some 0)
    (demoState [demoFile "a"]) (by decide) (by decide) rfl rfl (by decide)

/-- C3 counterexample: the mask-mean alpha is imposed only after being
multiplied by the source pixel's own alpha (`source-in` multiplies source
and destination alphas).  For a translucent photo pixel (alpha 128) under
a white mask pixel the output alpha is 128, not the claimed mask mean
255. -/
theorem C3_counterexample :
    ((applyMask [⟨10, 20, 30, 128⟩] [⟨255, 255, 255, 0⟩])[0]?.map Pixel.a) = some 128 ∧
    some (128 : Nat) ≠ some ((255 + 255 + 255 + 1) / 3 : Nat) := by
  have hq := applyMask_getElem? [⟨10, 20, 30, 128⟩] [⟨255, 255, 255, 0⟩] 0
    ⟨10, 20, 30, 128⟩ ⟨255, 255, 255, 0⟩ rfl rfl
  have hl : (lumaAlpha ⟨255, 255, 255, 0⟩).a = 255 := by
    show u8Clamped (brightness 255 255 255) = 255
    rw [u8Clamped_brightness 255 255 255 (by omega)]
  have ha : (sourceIn (lumaAlpha ⟨255, 255, 255, 0⟩) ⟨10, 20, 30, 128⟩).a = 128 := by
    rw [sourceIn_alpha_closed (lumaAlpha ⟨255, 255, 255, 0⟩) ⟨10, 20, 30, 128⟩
      (by decide) (le_of_eq hl), hl]
    decide
  refine ⟨?_, by decide⟩
  rw [hq, Option.map_some', ha]

/-- C3 (amended): at every pixel, the compositor output takes its colour
channels from the source photo, and its alpha is the mask's unweighted
channel mean `(R + G + B) / 3` — stored as `(R+G+B+1)/3`, linear within
the byte rounding, no threshold, no gamma — multiplied (per `source-in`)
by the photo pixel's own alpha and rescaled by 255:
alpha = `(2 * (As * mean) + 255) / 510`.  Only when the photo pixel is
fully opaque (`As = 255`, the usual case for JPEG-decoded photos) is the
output alpha exactly the mask mean. -/
theorem C3_alpha_composite (photo maskImg : List Pixel) (i : Nat) (p m : Pixel)
    (hp : photo[i]? = some p) (hm : maskImg[i]? = some m)
    (hpa : p.a ≤ 255) (hr : m.r ≤ 255) (hg : m.g ≤ 255) (hb : m.b ≤ 255) :
    ((applyMask photo maskImg)[i]?.map Pixel.r) = some p.r ∧
    ((applyMask photo maskImg)[i]?.map Pixel.g) = some p.g ∧
    ((applyMask photo maskImg)[i]?.map Pixel.b) = some p.b ∧
    ((applyMask photo maskImg)[i]?.map Pixel.a)
      = some ((2 * (p.a * ((m.r + m.g + m.b + 1) / 3)) + 255) / 510) ∧
    (p.a = 255 →
      ((applyMask photo maskImg)[i]?.map Pixel.a) = some ((m.r + m.g + m.b + 1) / 3)) ∧
    ((((m.r + m.g + m.b + 1) / 3 : Nat) : ℤ) * 3 - ((m.r + m.g + m.b : Nat) : ℤ)).natAbs
      ≤ 1 := by
  have hq := applyMask_getElem? photo maskImg i p m hp hm
  have hl : (lumaAlpha m).a = (m.r + m.g + m.b + 1) / 3 := by
    show u8Clamped (brightness m.r m.g m.b) = _
    exact u8Clamped_brightness m.r m.g m.b (by omega)
  have halpha : (sourceIn (lumaAlpha m) p).a
      = (2 * (p.a * ((m.r + m.g + m.b + 1) / 3)) + 255) / 510 := by
    rw [sourceIn_alpha_closed (lumaAlpha m) p hpa (u8Clamped_le _), hl]
  have hgen : ((applyMask photo maskImg)[i]?.map Pixel.a)
      = some ((2 * (p.a * ((m.r + m.g + m.b + 1) / 3)) + 255) / 510) := by
    rw [hq, Option.map_some', halpha]
  refine ⟨by rw [hq]; rfl, by rw [hq]; rfl, by rw [hq]; rfl, hgen, ?_, by omega⟩
  intro h255
  rw [hgen, h255]
  congr 1
  omega

/-- C3 witness: over an opaque photo, a white, a black, and a mid-gray
mask pixel produce alphas 255, 0 and 128 and the colour comes from the
photo; over a half-transparent photo pixel (alpha 128) a white mask
pixel produces alpha 128. -/
theorem C3_alpha_composite_witness :
    ((applyMask demoPhoto demoMask)[0]?.map Pixel.a) = some 255 ∧
    ((applyMask demoPhoto demoMask)[1]?.map Pixel.a) = some 0 ∧
    ((applyMask demoPhoto demoMask)[2]?.map Pixel.a) = some 128 ∧
    ((applyMask demoPhoto demoMask)[0]?.map Pixel.r) = some 10 ∧
    ((applyMask [⟨10, 20, 30, 128⟩] [⟨255, 255, 255, 0⟩])[0]?.map Pixel.a)
      = some 128 := by
  have h0 := C3_alpha_composite demoPhoto demoMask 0 ⟨10, 20, 30, 255⟩ ⟨255, 255, 255, 0⟩
    rfl rfl (by decide) (by decide) (by decide) (by decide)
  have h1 := C3_alpha_composite demoPhoto demoMask 1 ⟨1, 2, 3, 255⟩ ⟨0, 0, 0, 0⟩
    rfl rfl (by decide) (by decide) (by decide) (by decide)
  have h2 := C3_alpha_composite demoPhoto demoMask 2 ⟨9, 9, 9, 255⟩ ⟨128, 128, 128, 0⟩
    rfl rfl (by decide) (by decide) (by decide) (by decide)
  have h3 := C3_alpha_composite [⟨10, 20, 30, 128⟩] [⟨255, 255, 255, 0⟩] 0
    ⟨10, 20, 30, 128⟩ ⟨255, 255, 255, 0⟩ rfl rfl (by decide) (by decide) (by decide)
    (by decide)
  exact ⟨h0.2.2.2.2.1 rfl, h1.2.2.2.2.1 rfl, h2.2.2.2.2.1 rfl, h0.1, h3.2.2.2.1⟩

/-- C4 counterexample: Tauri `extname` returns the extension without its
dot and JavaScript `replace` removes only the first occurrence of the
extension characters, so the derived names keep the dot and differ from
the claimed `photo-clipped.png` / `a.b-clipped.png`. -/
theorem C4_counterexample :
    createFileName "photo.JPG" = some "photo.-clipped.png" ∧
    createFileName "a.b.png" = some "a.b.-clipped.png" ∧
    createFileName "photo.JPG" ≠ some "photo-clipped.png" ∧
    createFileName "a.b.png" ≠ some "a.b-clipped.png" := by
  decide

/-- C4 (amended): for a file name `stem.ext` (nonempty stem and extension,
no dot in the extension, no separator, extension not occurring inside the
stem), the derived output name is the original with only the extension
characters removed — the dot survives — followed by `-clipped.png`:
`derive("photo.JPG") = "photo.-clipped.png"`,
`derive("a.b.png") = "a.b.-clipped.png"`. -/
theorem C4_derive_keeps_dot (stem ext : List Char)
    (hstem : stem ≠ []) (hne : ext ≠ []) (hdot : '.' ∉ ext)
    (hslash : '/' ∉ stem ++ '.' :: ext) (hinf : ¬ ext <:+: stem) :
    createFileName (String.mk (stem ++ '.' :: ext))
      = some (String.mk (stem ++ '.' :: "-clipped.png".data)) :=
  createFileName_stem_ext stem ext hstem hne hdot hslash hinf

/-- C4 witness: the two names from the claim. -/
theorem C4_derive_keeps_dot_witness :
    createFileName "photo.JPG" = some "photo.-clipped.png" ∧
    createFileName "a.b.png" = some "a.b.-clipped.png" := by
  have h1 := C4_derive_keeps_dot "photo".data "JPG".data (by decide) (by decide)
    (by decide) (by decide) (by decide)
  have h2 := C4_derive_keeps_dot "a.b".data "png".data (by decide) (by decide)
    (by decide) (by decide) (by decide)
  exact ⟨h1, h2⟩

/-- C5 counterexample: the `useState`-based App.tsx cancel button clears
the whole per-item status map, so an item that was `completed` loses its
entry and is displayed as `pending` again. -/
theorem C5_counterexample :
    legacyDisplayedStatus legacyDemo "a" = FileStatus.completed ∧
    legacyDisplayedStatus (legacyCancelClick legacyDemo) "a" = FileStatus.pending ∧
    mapGet? (legacyCancelClick legacyDemo).processedFiles "a" = none := by
  decide

/-- C5 (amended): in the reducer-driven implementation, while the run
record exists an item that reached `completed`/`error` never changes status
between consecutive reachable states (the record may only be discarded
whole), and after cancellation is observed no further per-item status is
dispatched, so the in-flight item is left at its last status rather than
forced to `error`.  The `useState` implementation violates retention: its
cancel button clears the entire map (see the counterexample). -/
theorem C5_terminal_status_monotone (F : List FileItem) (outcome : Nat → Outcome)
    (cancelFrom : Option Nat) (s0 : AppState)
    (hnd : (F.map FileItem.id).Nodup) (hF : 0 < F.length)
    (hfiles : s0.files = F) (hreq : s0.processingRequest = none) :
    List.Chain' terminalPreserved
      (loopStates s0 (handleStartTrace F outcome cancelFrom)) ∧
    ∀ l1 l2, handleStartTrace F outcome cancelFrom = l1 ++ .cancelComplete :: l2 →
      ∀ fid st, AppAction.fileStatusChanged fid st ∉ l2 := by
  have hA := handleStart_phaseA s0 F hnd hfiles
  have hspec := processLoop_spec outcome cancelFrom F hnd hF F [] 0
    (appReducer s0 .removeBackgroundButtonClicked) (by simp) (by simp) hA
  constructor
  · exact chain'_scanl_cons (terminalPreserved_start s0 hreq _) hspec.2.1
  · intro l1 l2 heq fid st hmem
    have h := cancelTailOnly_handleStart F outcome cancelFrom l1 l2 heq _ hmem
    exact AppAction.noConfusion h

/-- C5 witness: a concrete run cancelled after the first item completed. -/
theorem C5_terminal_status_monotone_witness :
    List.Chain' terminalPreserved
      (loopStates (demoState [demoFile "a", demoFile "b"])
        (handleStartTrace [demoFile "a", demoFile "b"] (fun _ => Outcome.ok) (some 4))) ∧
    ∀ l1 l2, handleStartTrace [demoFile "a", demoFile "b"] (fun _ => Outcome.ok) (some 4)
        = l1 ++ .cancelComplete :: l2 →
      ∀ fid st, AppAction.fileStatusChanged fid st ∉ l2 :=
  C5_terminal_status_monotone [demoFile "a", demoFile "b"] (fun _ => Outcome.ok) (some 4)
    (demoState [demoFile "a", demoFile "b"]) (by decide) (by decide) rfl rfl

/-- The empty pre-run state: no files, no output folder. -/
def emptyState : AppState :=
  { isDragging := false, files := [], outputFolder := none, processingRequest := none }

/-- C6 counterexample: with an empty file list and no output folder
configured, `REMOVE_BACKGROUND_BUTTON_CLICKED` neither fails nor leaves the
state unchanged — it starts a run anyway. -/
theorem C6_counterexample :
    appReducer emptyState .removeBackgroundButtonClicked ≠ emptyState ∧
    (appReducer emptyState .removeBackgroundButtonClicked).processingRequest.map
      ProcessingRequest.status = some RequestStatus.processing := by
  decide

/-- C6 (amended): `REMOVE_BACKGROUND_BUTTON_CLICKED` unconditionally
initializes a run — every file id mapped to `pending`, `currentIndex = 0`,
`progress = 0`, status `processing` — regardless of an already-active run,
a missing output destination, or an empty file list; the `InvalidState` /
`PreconditionFailed` failures of the claim do not exist in the reducer
(preconditions are enforced only by the UI disabling the button). -/
theorem C6_removeBackground_initializes (s : AppState)
    (hnd : (s.files.map FileItem.id).Nodup) :
    (appReducer s .removeBackgroundButtonClicked).processingRequest =
      some { status := RequestStatus.processing
             progress := 0
             processedFiles := s.files.map (fun f => (f.id, FileStatus.pending))
             currentProcessingIndex := 0
             isCancelling := false } ∧
    (appReducer s .removeBackgroundButtonClicked).files = s.files ∧
    (appReducer s .removeBackgroundButtonClicked).outputFolder = s.outputFolder := by
  refine ⟨?_, rfl, rfl⟩
  show some ({ status := .processing
               progress := 0
               processedFiles := s.files.foldl (fun m f => updateMap m f.id .pending) []
               currentProcessingIndex := 0
               isCancelling := false } : ProcessingRequest) = _
  rw [buildInitial_eq s.files hnd, statusZip_replicate]

/-- C6 witness: a concrete state with an active run and files present. -/
theorem C6_removeBackground_initializes_witness :
    (appReducer (demoState [demoFile "a"]) .removeBackgroundButtonClicked).processingRequest
      = some { status := RequestStatus.processing
               progress := 0
               processedFiles := [demoFile "a"].map (fun f => (f.id, FileStatus.pending))
               currentProcessingIndex := 0
               isCancelling := false } ∧
    (appReducer (demoState [demoFile "a"]) .removeBackgroundButtonClicked).files
      = (demoState [demoFile "a"]).files ∧
    (appReducer (demoState [demoFile "a"]) .removeBackgroundButtonClicked).outputFolder
      = (demoState [demoFile "a"]).outputFolder :=
  C6_removeBackground_initializes (demoState [demoFile "a"]) (by decide)

/-- C7: in a run of N items where exactly one item fails (at any of the
mask, composite or write steps) and the rest succeed, with no cancellation,
the run reaches terminal status `success` with progress 100, exactly one
`error` entry and N - 1 `completed` entries. -/
theorem C7_single_failure_completes (F : List FileItem) (outcome : Nat → Outcome)
    (k : Nat) (s0 : AppState)
    (hnd : (F.map FileItem.id).Nodup) (hF : 0 < F.length)
    (hfiles : s0.files = F) (hreq : s0.processingRequest = none)
    (hk : k < F.length) (hfail : outcome k ≠ Outcome.ok)
    (hok : ∀ j, j < F.length → j ≠ k → outcome j = Outcome.ok) :
    ((List.foldl appReducer s0 (handleStartTrace F outcome none)).processingRequest.map
      ProcessingRequest.status) = some RequestStatus.success ∧
    ((List.foldl appReducer s0 (handleStartTrace F outcome none)).processingRequest.map
      ProcessingRequest.progress) = some 100 ∧
    ((List.foldl appReducer s0 (handleStartTrace F outcome none)).processingRequest.map
      (fun r => countStatus r.processedFiles FileStatus.error)) = some 1 ∧
    ((List.foldl appReducer s0 (handleStartTrace F outcome none)).processingRequest.map
      (fun r => countStatus r.processedFiles FileStatus.completed))
      = some (F.length - 1) := by
  have hA := handleStart_phaseA s0 F hnd hfiles
  have hspec := processLoop_spec outcome none F hnd hF F [] 0
    (appReducer s0 .removeBackgroundButtonClicked) (by simp) (by simp) hA
  have hnc : AppAction.cancelComplete ∉ processLoop outcome none F 0 0 :=
    processLoop_no_cancel outcome F 0 0
  obtain ⟨r, hrec, hsucc, hprog, hmap⟩ := hspec.2.2.2 hnc
  have hfold : (List.foldl appReducer s0
      (handleStartTrace F outcome none)).processingRequest = some r := by
    simpa only [handleStartTrace, List.foldl_cons] using hrec
  simp only [List.nil_append, List.length_nil, Nat.sub_zero] at hmap
  have hlen : ((List.range' 0 F.length).map
      (fun j => outcomeStatus (outcome j))).length = F.length := by
    rw [List.length_map, List.length_range']
  have hndr : (List.range' 0 F.length).Nodup := List.nodup_range' 0 F.length 1 (by omega)
  have hkmem : k ∈ List.range' 0 F.length := by
    rw [List.mem_range'_1]
    omega
  have herr : countStatus r.processedFiles FileStatus.error = 1 := by
    rw [hmap, countStatus_statusZip F _ hlen, List.filter_map, List.length_map]
    apply filter_length_one_of_unique _ _ k hndr hkmem
    intro x hx
    rw [List.mem_range'_1] at hx
    constructor
    · intro hpx
      by_contra hxk
      have := hok x (by omega) hxk
      rw [Function.comp_apply, this] at hpx
      simp [outcomeStatus] at hpx
    · intro hxk
      subst hxk
      rw [Function.comp_apply]
      cases ho : outcome x with
      | ok => exact absurd ho hfail
      | failMask => simp [outcomeStatus]
      | failApply => simp [outcomeStatus]
      | failSave => simp [outcomeStatus]
  have hcomp : countStatus r.processedFiles FileStatus.completed = F.length - 1 := by
    rw [hmap, countStatus_statusZip F _ hlen, List.filter_map, List.length_map]
    have := filter_length_of_except (List.range' 0 F.length)
      ((fun st => st == FileStatus.completed) ∘ (fun j => outcomeStatus (outcome j)))
      k hndr hkmem ?_
    · rw [this, List.length_range']
    · intro x hx
      rw [List.mem_range'_1] at hx
      constructor
      · intro hpx hxk
        subst hxk
        rw [Function.comp_apply] at hpx
        cases ho : outcome x with
        | ok => exact hfail ho
        | failMask => rw [ho] at hpx; simp [outcomeStatus] at hpx
        | failApply => rw [ho] at hpx; simp [outcomeStatus] at hpx
        | failSave => rw [ho] at hpx; simp [outcomeStatus] at hpx
      · intro hxk
        rw [Function.comp_apply, hok x (by omega) hxk]
        simp [outcomeStatus]
  rw [hfold]
  simp only [Option.map_some']
  exact ⟨congrArg some hsucc, congrArg some hprog, congrArg some herr, congrArg some hcomp⟩

/-- C7 witness: three files, the middle one failing at compositing. -/
theorem C7_single_failure_completes_witness :
    ((List.foldl appReducer (demoState [demoFile "a", demoFile "b", demoFile "c"])
      (handleStartTrace [demoFile "a", demoFile "b", demoFile "c"]
        (fun j => if j = 1 then Outcome.failApply else Outcome.ok) none)).processingRequest.map
      ProcessingRequest.status) = some RequestStatus.success ∧
    ((List.foldl appReducer (demoState [demoFile "a", demoFile "b", demoFile "c"])
      (handleStartTrace [demoFile "a", demoFile "b", demoFile "c"]
        (fun j => if j = 1 then Outcome.failApply else Outcome.ok) none)).processingRequest.map
      ProcessingRequest.progress) = some 100 ∧
    ((List.foldl appReducer (demoState [demoFile "a", demoFile "b", demoFile "c"])
      (handleStartTrace [demoFile "a", demoFile "b", demoFile "c"]
        (fun j => if j = 1 then Outcome.failApply else Outcome.ok) none)).processingRequest.map
      (fun r => countStatus r.processedFiles FileStatus.error)) = some 1 ∧
    ((List.foldl appReducer (demoState [demoFile "a", demoFile "b", demoFile "c"])
      (handleStartTrace [demoFile "a", demoFile "b", demoFile "c"]
        (fun j => if j = 1 then Outcome.failApply else Outcome.ok) none)).processingRequest.map
      (fun r => countStatus r.processedFiles FileStatus.completed))
      = some ([demoFile "a", demoFile "b", demoFile "c"].length - 1) :=
  C7_single_failure_completes [demoFile "a", demoFile "b", demoFile "c"]
    (fun j => if j = 1 then Outcome.failApply else Outcome.ok) 1
    (demoState [demoFile "a", demoFile "b", demoFile "c"])
    (by decide) (by decide) rfl rfl (by decide) (by decide)
    (by
      intro j hj hne
      have hj' : j = 0 ∨ j = 2 := by
        have h3 : j < 3 := by simpa using hj
        omega
      rcases hj' with h | h <;> subst h <;> rfl)

/-- C8: throughout a run driven by `handleStart`, the per-item status map
holds exactly one entry per file present at run start — its key list is
exactly the start file ids, in order, in every reachable state while the
record exists. -/
theorem C8_map_keys_stable (F : List FileItem) (outcome : Nat → Outcome)
    (cancelFrom : Option Nat) (s0 : AppState)
    (hnd : (F.map FileItem.id).Nodup) (hF : 0 < F.length)
    (hfiles : s0.files = F) (hreq : s0.processingRequest = none) :
    ∀ s ∈ loopStates s0 (handleStartTrace F outcome cancelFrom),
      ∀ r, s.processingRequest = some r →
        mapKeys r.processedFiles = F.map FileItem.id := by
  have hA := handleStart_phaseA s0 F hnd hfiles
  have hspec := processLoop_spec outcome cancelFrom F hnd hF F [] 0
    (appReducer s0 .removeBackgroundButtonClicked) (by simp) (by simp) hA
  have hall : ∀ x ∈ loopStates s0 (handleStartTrace F outcome cancelFrom), runInv F x :=
    forall_mem_scanl_cons (runInv_of_none F s0 hfiles hreq) hspec.1
  intro s hs r hr
  exact ((hall s hs).2 r hr).1

/-- C8 witness: a concrete two-file run with one failure, the key
invariant checked over the whole list of reached states. -/
theorem C8_map_keys_stable_witness :
    ((loopStates (demoState [demoFile "a", demoFile "b"])
        (handleStartTrace [demoFile "a", demoFile "b"]
          (fun j => if j = 0 then Outcome.failMask else Outcome.ok) none)).all
      (fun s =>
        match s.processingRequest with
        | none => true
        | some r =>
            mapKeys r.processedFiles == [demoFile "a", demoFile "b"].map FileItem.id))
      = true := by
  have h := C8_map_keys_stable [demoFile "a", demoFile "b"]
    (fun j => if j = 0 then Outcome.failMask else Outcome.ok) none
    (demoState [demoFile "a", demoFile "b"]) (by decide) (by decide) rfl rfl
  rw [List.all_eq_true]
  intro s hs
  cases hreq : s.processingRequest with
  | none => simp
  | some r =>
    have h2 := h s hs r hreq
    simp [h2]

/-- C9: the compositor is a pure function of the two pixel buffers — two
calls on identical inputs produce identical output buffers (the embedding
has no other state for it to read; the PNG encoding of the buffer is the
browser's and is outside the repository). -/
theorem C9_applyMask_deterministic (photo1 mask1 photo2 mask2 : List Pixel)
    (hphoto : photo1 = photo2) (hmask : mask1 = mask2) :
    applyMask photo1 mask1 = applyMask photo2 mask2 := by
  rw [hphoto, hmask]

/-- C9 witness: repeated application on a concrete input. -/
theorem C9_applyMask_deterministic_witness :
    applyMask demoPhoto demoMask = applyMask demoPhoto demoMask :=
  C9_applyMask_deterministic demoPhoto demoMask demoPhoto demoMask rfl rfl

/-- C10: when no run record exists, `FILE_STATUS_CHANGED`,
`PROCESSING_PROGRESS_CHANGED`, `PROCESSING_COMPLETED` and
`CANCEL_BUTTON_CLICKED` each leave the state completely unchanged. -/
theorem C10_actions_noop_without_run (s : AppState) (h : s.processingRequest = none)
    (fid : String) (st : FileStatus) (i : Nat) :
    appReducer s (.fileStatusChanged fid st) = s ∧
    appReducer s (.processingProgressChanged i) = s ∧
    appReducer s .processingCompleted = s ∧
    appReducer s .cancelButtonClicked = s := by
  refine ⟨?_, ?_, ?_, ?_⟩ <;> simp [appReducer, h]

/-- C10 witness: a concrete state without a run record. -/
theorem C10_actions_noop_without_run_witness :
    appReducer (demoState [demoFile "a"]) (.fileStatusChanged "a" FileStatus.completed)
      = demoState [demoFile "a"] ∧
    appReducer (demoState [demoFile "a"]) (.processingProgressChanged 3)
      = demoState [demoFile "a"] ∧
    appReducer (demoState [demoFile "a"]) .processingCompleted = demoState [demoFile "a"] ∧
    appReducer (demoState [demoFile "a"]) .cancelButtonClicked = demoState [demoFile "a"] :=
  C10_actions_noop_without_run (demoState [demoFile "a"]) rfl "a" FileStatus.completed 3

end Clearcut
